import Mathlib

/-!
Verification development for the km wiki runtime (`src/km_testing.js`).

We shallowly embed the algorithmic core of the runtime: the bundle parser
and per-heading section indexer (`parseMarkdownBundle`), the hierarchy
builder and orphan promoter (`attachSecondaryHomes`, `descendants`), the
path addresser (`computeHashes`, `find`), the ranked search scorer
(`search`) and the graph-data builder (`buildGraphData`).

JavaScript strings are embedded as `List Char` (`Str`).  JS regular
expressions used by the code are embedded by their concrete semantics on
such strings:
 * `/\b tok \b/g` (word-boundary token matching, used by `search`) is
   embedded via `matchAt` / `firstMatchFrom`, including the statefulness
   of `RegExp.prototype.test` with the `g` flag: a successful `test`
   leaves `lastIndex` at the end of the match, a failing one resets it
   to `0`, and the next `test` on the *same* regex object starts
   searching at `lastIndex`.
 * the bundle-splitting regex and the `key:"value"` metadata regex are
   embedded by direct scanners (`blocksOf`, `metaPairsOf`).
-/

namespace Km

/-- JavaScript strings, embedded as lists of characters. -/
abbrev Str := List Char

/-- Whitespace test (JS `\s`, restricted to the ASCII whitespace that the
embedding uses; `Char.isWhitespace` covers space, tab, CR, LF). -/
def isWs (c : Char) : Bool := c.isWhitespace

/-- Word characters, JS `\w`: ASCII letters, digits and underscore. -/
def isWordChar (c : Char) : Bool :=
  (('a' ≤ c && c ≤ 'z') || ('A' ≤ c && c ≤ 'Z') || ('0' ≤ c && c ≤ '9') || c = '_')

/-- Character lowercasing (JS `toLowerCase`, ASCII fragment). -/
def lowerC (c : Char) : Char := c.toLower

/-- String lowercasing. -/
def lower (s : Str) : Str := s.map lowerC

/-- Trim, JS `String.prototype.trim`: drop leading and trailing whitespace. -/
def trimWs (s : Str) : Str :=
  ((s.dropWhile isWs).reverse.dropWhile isWs).reverse

/-- Prepend a character to the first chunk of a chunk list (helper used by
the splitters below). -/
def consHead (c : Char) : List Str → List Str
  | [] => [[c]]
  | h :: t => (c :: h) :: t

/-- Line split, JS `content.split(/\r?\n/)`: split at each `\n`, consuming one `\r`
directly before it; a `\r` not followed by `\n` is kept. -/
def linesOf : Str → List Str
  | [] => [[]]
  | '\n' :: rest => [] :: linesOf rest
  | '\r' :: '\n' :: rest => [] :: linesOf rest
  | c :: rest => consHead c (linesOf rest)

/-- Whitespace split, JS `val.split(/\s+/)` on an already-trimmed string:
whitespace-run separated words (empty chunks dropped).  A non-whitespace
character followed by whitespace (or the end) closes the current word. -/
def splitWs : Str → List Str
  | [] => []
  | [c] => if isWs c then [] else [[c]]
  | c :: d :: rest =>
    if isWs c then splitWs (d :: rest)
    else if isWs d then [c] :: splitWs (d :: rest)
    else consHead c (splitWs (d :: rest))

/-- Comma split, JS `tags.split(',')`. -/
def splitComma : Str → List Str
  | [] => [[]]
  | ',' :: rest => [] :: splitComma rest
  | c :: rest => consHead c (splitComma rest)

/-- First-occurrence de-duplication with a seen accumulator (JS `Set`
insertion order). -/
def dedupFirstAux {α} [DecidableEq α] : List α → List α → List α
  | [], _ => []
  | a :: as, seen =>
    if a ∈ seen then dedupFirstAux as seen else a :: dedupFirstAux as (a :: seen)

/-- First-occurrence de-duplication (JS `Set` insertion order). -/
def dedupFirst {α} [DecidableEq α] (l : List α) : List α := dedupFirstAux l []

/-- Space join, JS `Array.prototype.join(' ')`. -/
def joinSp : List Str → Str
  | [] => []
  | [s] => s
  | s :: rest => s ++ ' ' :: joinSp rest

/-- Decimal rendering of a natural number (JS number-to-string for the
section counters). -/
def natStr (n : Nat) : Str := (toString n).data

/-- Underscore join, JS `join('_')` over counter strings. -/
def joinUnderscore : List Str → Str
  | [] => []
  | [s] => s
  | s :: rest => s ++ '_' :: joinUnderscore rest

/-- Case-insensitive lexicographic order on titles: the embedding of the
default-locale `localeCompare` tie-break used by `search` (faithful on
ASCII titles; all inputs considered in this development are ASCII). -/
def lexLt : Str → Str → Bool
  | [], [] => false
  | [], _ :: _ => true
  | _ :: _, [] => false
  | a :: as, b :: bs =>
    if lowerC a < lowerC b then true
    else if lowerC b < lowerC a then false
    else lexLt as bs

/-! ### Word-boundary regex machinery (`/\b tok \b/g`) -/

/-- Is the character at index `i` a word character (`false` out of range,
matching the regex notion of string edges)? -/
def wordAtB (s : Str) (i : Nat) : Bool :=
  match s.get? i with
  | some c => isWordChar c
  | none => false

/-- Boundary test: `\b` holds at position `i` of `s`: word-ness changes between positions
`i-1` and `i` (the position before the string counts as non-word). -/
def boundB (s : Str) (i : Nat) : Bool :=
  (if i = 0 then false else wordAtB s (i - 1)) != wordAtB s i

/-- Match test: `\b tok \b` matches at index `i` of `s` (the token occurs literally at
`i` with word boundaries on both sides).  The token is matched literally:
the source escapes regex metacharacters with `esc` before building the
regex, so the pattern between the boundaries is the literal token. -/
def matchAt (s tok : Str) (i : Nat) : Bool :=
  ((s.drop i).take tok.length == tok) && boundB s i && boundB s (i + tok.length)

/-- Search loop: first index `≥ i` (within `fuel` steps) where `\b tok \b`
matches. -/
def findFromAux (s tok : Str) (i : Nat) : Nat → Option Nat
  | 0 => none
  | fuel + 1 => if matchAt s tok i then some i else findFromAux s tok (i + 1) fuel

/-- First match position of `\b tok \b` in `s` at or after `start`
(the regex engine's search from `lastIndex = start`). -/
def firstMatchFrom (s tok : Str) (start : Nat) : Option Nat :=
  findFromAux s tok start (s.length + 1 - start)

/-- Stateful `RegExp.prototype.test` on a `g`-flagged regex: search from the stored
`lastIndex`; on success return `true` and the index just after the match,
on failure return `false` and reset `lastIndex` to `0`. -/
def testG (tok s : Str) (lastIndex : Nat) : Bool × Nat :=
  match firstMatchFrom s tok lastIndex with
  | some i => (true, i + tok.length)
  | none => (false, 0)

/-- Substring test, the JS `String.prototype.includes`. -/
def includesSub (s t : Str) : Bool := decide (t <:+: s)

/-- Slice, JS `s.slice(a, b)` (both ends clamped, empty if `a ≥ b`). -/
def sliceStr (s : Str) (a b : Nat) : Str := (s.drop a).take (b - a)

/-! ### Section indexer (the per-page heading scan of `parseMarkdownBundle`) -/

/-- One extracted heading section (`{ id, txt, bodyStart, body, search }`
objects pushed onto `p.sections`). -/
structure Section where
  sid : Str        -- `id`: underscore-joined non-zero counters
  txt : Str        -- heading text (trimmed)
  bodyStart : Nat  -- body start offset into the page content
  body : Str       -- text to the next heading (trimmed)
  search : Str     -- `(txt + ' ' + body).toLowerCase()`
  deriving DecidableEq, Repr

/-- The pending `prev` record of the scanner (fields set at the heading
line; `body`/`search` are filled in when the section is committed). -/
structure PrevRec where
  sid : Str
  txt : Str
  bodyStart : Nat
  deriving DecidableEq, Repr

/-- Scanner state for the line loop in `parseMarkdownBundle`. -/
structure ScanSt where
  counters : List Nat      -- the six per-level heading counters
  sections : List Section  -- committed sections, in order
  inFence : Bool           -- inside a fenced code block?
  offset : Nat             -- character offset of the current line
  prev : Option PrevRec    -- pending heading, not yet committed
  deriving DecidableEq, Repr

/-- Initial scanner state (`counters = [0,0,0,0,0,0]`, nothing pending). -/
def scanInit : ScanSt :=
  { counters := [0, 0, 0, 0, 0, 0], sections := [], inFence := false,
    offset := 0, prev := none }

/-- Fence-toggle test, JS regex `/^(?:```|~~~)/`. -/
def isFenceLine (line : Str) : Bool :=
  (['`', '`', '`'].isPrefixOf line) || (['~', '~', '~'].isPrefixOf line)

/-- Number of leading `#` characters. -/
def hashRun (line : Str) : Nat := (line.takeWhile (· = '#')).length

/-- Heading test, JS regex `/^(#{1,6})\s+/`: one to six leading `#`, then
at least one whitespace character. -/
def isHeadingLine (line : Str) : Bool :=
  let r := hashRun line
  1 ≤ r && r ≤ 6 &&
    (match line.get? r with
     | some c => isWs c
     | none => false)

/-- Commit the pending section: slice its body out of the content up to
`endPos`, trim it, and derive the lowercased search string. -/
def commitPrev (content : Str) (p : PrevRec) (endPos : Option Nat) : Section :=
  let body := trimWs (match endPos with
    | some e => sliceStr content p.bodyStart e
    | none => content.drop p.bodyStart)
  { sid := p.sid, txt := p.txt, bodyStart := p.bodyStart, body := body,
    search := lower (p.txt ++ ' ' :: body) }

/-- Bump counter at `level`, reset all deeper counters
(`counters[level]++; for (i = level+1; i < 6; i++) counters[i] = 0`). -/
def bumpCounters (counters : List Nat) (level : Nat) : List Nat :=
  counters.mapIdx (fun i c => if i = level then c + 1 else if i > level then 0 else c)

/-- Heading id: underscore-join of the non-zero counters up to `level`
(`counters.slice(0, level+1).filter(Boolean).join('_')`). -/
def headingId (counters : List Nat) (level : Nat) : Str :=
  joinUnderscore (((counters.take (level + 1)).filter (fun c => c ≠ 0)).map natStr)

/--
One iteration of the line loop in `parseMarkdownBundle`.

Faithful including the failure mode of the source: on a line whose heading
test succeeds but whose text after the `#` run is a single whitespace
character and nothing else, `line.match(/^(#{1,6})\s+(.+)/)` returns
`null` and the destructuring `const [, hashes, txt] = ...` throws a
`TypeError`; the embedding returns `none` there.  When the remainder after
the `#` run contains at least two characters, the match succeeds (with
backtracking giving `(.+)` at least one character) and the stored, trimmed
heading text equals `trimWs` of the remainder.
-/
def stepLine (content : Str) (st : ScanSt) (line : Str) : Option ScanSt :=
  let st1 := if isFenceLine line then { st with inFence := !st.inFence } else st
  if !st1.inFence && isHeadingLine line then
    let r := hashRun line
    let remainder := line.drop r
    if remainder.length = 1 then none   -- `match` returns null → TypeError
    else
      let newSections := match st1.prev with
        | some p => st1.sections ++ [commitPrev content p (some st1.offset)]
        | none => st1.sections
      let level := r - 1
      let counters := bumpCounters st1.counters level
      some { st1 with
        counters := counters,
        sections := newSections,
        prev := some { sid := headingId counters level, txt := trimWs remainder,
                       bodyStart := st1.offset + line.length + 1 },
        offset := st1.offset + line.length + 1 }
  else
    some { st1 with offset := st1.offset + line.length + 1 }

/-- Invariant of every section the scanner commits: its search string is
the lowercased join of its parts, and both parts are contiguous substrings
of the page content. -/
def SecGood (content : Str) (sec : Section) : Prop :=
  sec.search = lower (sec.txt ++ ' ' :: sec.body) ∧
    sec.txt <:+: content ∧ sec.body <:+: content

/-- Run the scanner over all lines of the content and commit the trailing
section; `none` when a line made the source throw. -/
def sectionsOf (content : Str) : Option (List Section) :=
  ((linesOf content).foldlM (stepLine content) scanInit).map (fun st =>
    match st.prev with
    | some p => st.sections ++ [commitPrev content p none]
    | none => st.sections)

/-! ### Search scorer (`search`) -/

/-- A page as consumed by `search`: the raw metadata fields together with
the `sections` computed at parse time.  `tagsSet` and `searchStr` are
recomputed from the raw fields by the functions below, exactly as
`parseMarkdownBundle` computes them. -/
structure SPage where
  title : Str
  tags : Str
  content : Str
  sections : List Section
  deriving DecidableEq, Repr

/-- A page is well-formed when its `sections` field is what the parser
computes from its content. -/
def SPage.wf (p : SPage) : Prop := sectionsOf p.content = some p.sections

/-- The page's `tagsSet` in insertion order:
`new Set((p.tags || '').split(',').map(s => s.trim()).filter(Boolean))`. -/
def tagsListOf (tags : Str) : List Str :=
  dedupFirst (((splitComma tags).map trimWs).filter (· ≠ []))

/-- The page's searchable string,
`p.searchStr = (p.title + ' ' + [...p.tagsSet].join(' ') + ' ' + p.content).toLowerCase()`. -/
def searchStrOf (p : SPage) : Str :=
  lower (p.title ++ ' ' :: (joinSp (tagsListOf p.tags) ++ ' ' :: p.content))

/-- The fixed weights `W` of `search`. -/
def Wtitle : Nat := 5
def Wtag : Nat := 3
def Wbody : Nat := 1
def WsecTitle : Nat := 3
def WsecBody : Nat := 1
def WphraseTitle : Nat := 5
def WphraseBody : Nat := 2
def WsecCountCap : Nat := 4

/-- Query tokens: whitespace-split of the lowercased trimmed query, tokens
shorter than two characters discarded. -/
def tokensOf (q : Str) : List Str :=
  (splitWs (lower (trimWs q))).filter (fun t => 2 ≤ t.length)

/--
Per-token field score of a page.  The source builds **one** `g`-flagged
regex per token and calls `.test` on it three times in a row (title, tag
string, body), so a successful title test leaves `lastIndex` at the end of
the title match and the tag test resumes searching *from that index*, and
so on; a failing test resets `lastIndex` to `0`.
-/
def tokenFieldScore (titleL tagsL bodyL tok : Str) : Nat :=
  let t1 := testG tok titleL 0
  let t2 := testG tok tagsL t1.2
  let t3 := testG tok bodyL t2.2
  (if t1.1 then Wtitle else 0) + (if t2.1 then Wtag else 0) + (if t3.1 then Wbody else 0)

/-- Per-token score of a section (same shared-regex pattern over the
section heading then the section body). -/
def secTokenScore (secTitle secBody tok : Str) : Nat :=
  let t1 := testG tok secTitle 0
  let t2 := testG tok secBody t1.2
  (if t1.1 then WsecTitle else 0) + (if t2.1 then WsecBody else 0)

/-- Score of one matched section (token weights plus the flat `+1` phrase
bonus). -/
def secScore (tokens : List Str) (phrase : Option Str) (sec : Section) : Nat :=
  let secTitle := lower sec.txt
  let secBody := lower sec.body
  (tokens.map (secTokenScore secTitle secBody)).sum +
    (match phrase with
     | some ph => if includesSub secTitle ph || includesSub secBody ph then 1 else 0
     | none => 0)

/-- The sections of `p` that pass the per-section prefilter
(`tokens.every(tok => sec.search.includes(tok))`). -/
def matchedSecs (tokens : List Str) (p : SPage) : List Section :=
  p.sections.filter (fun sec => tokens.all (fun tok => includesSub sec.search tok))

/--
Total score `search` assigns to one page, `none` when the page is not
scored at all: either the trimmed query is empty (inactive search) or the
page fails the prefilter (`tokens.every(tok => p.searchStr.includes(tok))`).
The matched sections are ranked separately for display; only their count
(capped at `W.secCountCap`) enters the page score.
-/
def pageScore (p : SPage) (q : Str) : Option Nat :=
  let val := lower (trimWs q)
  if val = [] then none
  else
    let tokens := (splitWs val).filter (fun t => 2 ≤ t.length)
    if !(tokens.all (fun tok => includesSub (searchStrOf p) tok)) then none
    else
      let titleL := lower p.title
      let tagsL := lower (joinSp (tagsListOf p.tags))
      let bodyL := lower p.content
      let phrase : Option Str := if tokens.length > 1 then some val else none
      let tokScore := (tokens.map (tokenFieldScore titleL tagsL bodyL)).sum
      let phraseBonus := match phrase with
        | some ph =>
          if includesSub titleL ph then WphraseTitle
          else if includesSub bodyL ph then WphraseBody
          else 0
        | none => 0
      some (tokScore + phraseBonus + min WsecCountCap (matchedSecs tokens p).length)

/-- Final ordering of two scored pages: score descending, ties broken by
the title comparison (`localeCompare`, embedded as case-insensitive
lexicographic order).  `RankedAbove p q` says `p` is ranked strictly above
`q`; pages that are not scored are not ranked. -/
def RankedAbove (p q : SPage) (query : Str) : Prop :=
  ∃ sp sq, pageScore p query = some sp ∧ pageScore q query = some sq ∧
    (sq < sp ∨ (sp = sq ∧ lexLt p.title q.title))

/-! ### Bundle splitting and metadata parsing (`parseMarkdownBundle`) -/

/-- First index `≥ i` at which `pat` occurs in `s` (substring search). -/
def findSubAux (s pat : Str) (i : Nat) : Nat → Option Nat
  | 0 => none
  | fuel + 1 =>
    if pat.isPrefixOf (s.drop i) then some i else findSubAux s pat (i + 1) fuel

/-- First index `≥ start` at which `pat` occurs in `s`. -/
def findSub (s pat : Str) (start : Nat) : Option Nat :=
  findSubAux s pat start (s.length + 1 - start)

/-- Index just after the maximal whitespace run starting at `i` (the
greedy `\s*`). -/
def skipWsFrom (s : Str) (i : Nat) : Nat :=
  i + ((s.drop i).takeWhile isWs).length

/--
The matches of `/<!--([\s\S]*?)-->\s*([\s\S]*?)(?=<!--|$)/g` over the
bundle, as (header, raw body) pairs.  Each match: the next `<!--` that has
a closing `-->` after it; lazily minimal header up to that first `-->`;
then the greedy `\s*`; then the lazily minimal body up to the next `<!--`
or the end of input (the lookahead); `matchAll` resumes at the match end.
-/
def blocksGo (txt : Str) (pos : Nat) : Nat → List (Str × Str)
  | 0 => []
  | fuel + 1 =>
    match findSub txt ['<', '!', '-', '-'] pos with
    | none => []
    | some i =>
      match findSub txt ['-', '-', '>'] (i + 4) with
      | none => []
      | some j =>
        let hdr := sliceStr txt (i + 4) j
        let afterWs := skipWsFrom txt (j + 3)
        let bodyEnd := match findSub txt ['<', '!', '-', '-'] afterWs with
          | some k => k
          | none => txt.length
        (hdr, sliceStr txt afterWs bodyEnd) :: blocksGo txt bodyEnd fuel

/-- All metadata blocks of the bundle text. -/
def blocksOf (txt : Str) : List (Str × Str) := blocksGo txt 0 (txt.length + 1)

/--
The matches of `/(\w+):"([^"]+)"/g` over a header, as (key, trimmed value)
pairs in match order (the source stores them into `meta` in this order, so
a repeated key ends up with its last value).  A match at position `p`
needs: a non-empty word-character run, `:`, `"`, a non-empty run of
non-quote characters, `"`.
-/
def metaGo (s : Str) (pos : Nat) : Nat → List (Str × Str)
  | 0 => []
  | fuel + 1 =>
    let w := (s.drop pos).takeWhile isWordChar
    let v := (s.drop (pos + w.length + 2)).takeWhile (· ≠ '"')
    if w ≠ [] ∧ s.get? (pos + w.length) = some ':' ∧
        s.get? (pos + w.length + 1) = some '"' ∧ v ≠ [] ∧
        s.get? (pos + w.length + 2 + v.length) = some '"' then
      (w, trimWs v) :: metaGo s (pos + w.length + 2 + v.length + 1) fuel
    else
      metaGo s (pos + 1) fuel

/-- All key/value pairs of a metadata header. -/
def metaPairsOf (hdr : Str) : List (Str × Str) := metaGo hdr 0 (hdr.length + 1)

/-- Last value bound to a key (later assignments overwrite earlier ones). -/
def metaLookup (pairs : List (Str × Str)) (key : Str) : Option Str :=
  (pairs.reverse.find? (fun kv => kv.1 == key)).map Prod.snd

/-- A parsed page record: its metadata pairs, trimmed content, and (after
the section pass) its sections. -/
structure PPage where
  meta : List (Str × Str)
  content : Str
  sections : List Section
  deriving DecidableEq, Repr

/-- The two ways `parseMarkdownBundle` can throw: the explicit
`'No pages parsed from MD bundle.'` error when the bundle yields no
metadata blocks, and the `TypeError` raised by destructuring the `null`
result of the heading `match` on a heading-test line with no heading text
(see `stepLine`). -/
inductive ParseErr where
  | noPages
  | headingMatchTypeError
  deriving DecidableEq, Repr

instance {ε α} [DecidableEq ε] [DecidableEq α] : DecidableEq (Except ε α) := fun a b =>
  match a, b with
  | .error e1, .error e2 =>
    if h : e1 = e2 then isTrue (by rw [h]) else isFalse (by intro hc; cases hc; exact h rfl)
  | .ok v1, .ok v2 =>
    if h : v1 = v2 then isTrue (by rw [h]) else isFalse (by intro hc; cases hc; exact h rfl)
  | .error _, .ok _ => isFalse (by intro hc; cases hc)
  | .ok _, .error _ => isFalse (by intro hc; cases hc)

/--
The parsing pipeline of `parseMarkdownBundle` up to and including the
section pass (the parent/children wiring it also performs is embedded
index-based in the hierarchy section below): split the bundle into
metadata blocks, build one page per block, throw if there are none, then
extract each page's sections (which can throw a `TypeError`, see
`stepLine`).
-/
def parseMarkdownBundle (txt : Str) : Except ParseErr (List PPage) := do
  let pages := (blocksOf txt).map (fun hb =>
    ({ meta := metaPairsOf hb.1, content := trimWs hb.2, sections := [] } : PPage))
  if pages = [] then throw ParseErr.noPages
  let withSecs ← pages.mapM (fun pg =>
    match sectionsOf pg.content with
    | some secs => pure { pg with sections := secs }
    | none => throw ParseErr.headingMatchTypeError)
  return withSecs

/-! ### Hierarchy builder, orphan promoter, path addresser

The hierarchy claims quantify over parsed metadata: a bundle is a list of
`PageMeta` records (the `id` and raw `parent` strings of each page, in
bundle order).  Pages are addressed by their index in this list; parent
object references become indices.
-/

/-- Parsed per-page metadata relevant to the hierarchy: the page id and
the raw `parent` reference string. -/
structure PageMeta where
  id : Str
  parent : Str
  deriving DecidableEq, Repr

/-- The id of page `i` (empty for an out-of-range index, which never
occurs in the lemmas). -/
def idAt (B : List PageMeta) (i : Nat) : Str :=
  ((B.get? i).map PageMeta.id).getD []

/-- The raw parent string of page `i`. -/
def rawParentAt (B : List PageMeta) (i : Nat) : Str :=
  ((B.get? i).map PageMeta.parent).getD []

/-- The `byId` lookup table: `byId.set(page.id, page)` is executed in
bundle order, so a duplicated id resolves to the **last** page bearing it. -/
def byIdIdx (B : List PageMeta) (s : Str) : Option Nat :=
  (List.range B.length).reverse.find? (fun i => idAt B i == s)

/-- The reserved root id. -/
def homeId : Str := ['h', 'o', 'm', 'e']

/-- Root selection: `root = byId.get('home') || pages[0]`. -/
def rootIdx (B : List PageMeta) : Nat := (byIdIdx B homeId).getD 0

/-- Parent linking of the hierarchy builder: the root gets no parent; any
other page resolves `(p.parent || '').trim()` through `byId`, tolerating
unresolved references as `none`. -/
def parentIdx (B : List PageMeta) (i : Nat) : Option Nat :=
  if i = rootIdx B then none else byIdIdx B (trimWs (rawParentAt B i))

/-- Children lists in bundle order: the builder iterates pages in bundle
order and pushes each non-root page with a resolved parent onto that
parent's `children`. -/
def childrenOf (B : List PageMeta) (j : Nat) : List Nat :=
  (List.range B.length).filter (fun i => parentIdx B i == some j)

/-- Fuel-indexed `descendants` count: the source recursion
`rec(x) = x.children.forEach(c => { n++; rec(c) })` (which the source
only ever runs on cycle-free hierarchies; the fuel is irrelevant there,
see `descF_stab`). -/
def descF (B : List PageMeta) : Nat → Nat → Nat
  | 0, _ => 0
  | fuel + 1, i => (childrenOf B i).foldl (fun acc c => acc + (1 + descF B fuel c)) 0

/-- `descendants(page)` with the canonical fuel. -/
def descendants (B : List PageMeta) (i : Nat) : Nat := descF B B.length i

/-- Fuel-indexed topmost-ancestor walk
(`topOf = p => { while (p.parent) p = p.parent; return p; }`). -/
def topOfF (B : List PageMeta) : Nat → Nat → Nat
  | 0, i => i
  | fuel + 1, i =>
    match parentIdx B i with
    | none => i
    | some j => topOfF B fuel j

/-- Topmost ancestor with the canonical fuel. -/
def topOf (B : List PageMeta) (i : Nat) : Nat := topOfF B B.length i

/-- Absence of parent-reference cycles: every page's parent chain reaches
a parentless page within `B.length` steps.  (On a cycle the walk in the
source would not terminate.) -/
def Acyclic (B : List PageMeta) : Prop :=
  ∀ i, i < B.length → parentIdx B (topOf B i) = none

instance (B : List PageMeta) : Decidable (Acyclic B) := by
  unfold Acyclic; infer_instance

/-- Verification infrastructure (not part of the source embedding): the
number of parent steps from `i` to its topmost ancestor, fuel-indexed;
`none` when the fuel runs out before a parentless page is reached. -/
def uplenF (B : List PageMeta) : Nat → Nat → Option Nat
  | 0, i =>
    match parentIdx B i with
    | none => some 0
    | some _ => none
  | fuel + 1, i =>
    match parentIdx B i with
    | none => some 0
    | some j => (uplenF B fuel j).map (· + 1)

/-- Chain length to the topmost ancestor (meaningful under `Acyclic`). -/
def uplen (B : List PageMeta) (i : Nat) : Nat := (uplenF B B.length i).getD 0

/-- Rank: distance from the chain-length bound; strictly decreases from a
page to its children (under `Acyclic`), bounding subtree heights. -/
def rkOf (B : List PageMeta) (i : Nat) : Nat := B.length - uplen B i

/-- The cluster keys in discovery order: iterate pages in bundle order,
take each page's topmost ancestor, skip pages already under the root, and
keep first occurrences (JS `Map` key insertion order). -/
def clusterTops (B : List PageMeta) : List Nat :=
  dedupFirst ((List.range B.length).filterMap (fun i =>
    let t := topOf B i
    if t = rootIdx B then none else some t))

/-- The members of the cluster keyed by `t`, in bundle order. -/
def clusterMembers (B : List PageMeta) (t : Nat) : List Nat :=
  (List.range B.length).filter (fun i => topOf B i == t)

/-- The representative of a cluster:
`members.reduce((a,b) => (descendants(b) > descendants(a) ? b : a), members[0])`,
i.e. the first member attaining the maximal descendant count. -/
def clusterRep (B : List PageMeta) (t : Nat) : Nat :=
  let ms := clusterMembers B t
  ms.foldl (fun a b => if descendants B a < descendants B b then b else a) (ms.headD 0)

/-- The promotion loop of `attachSecondaryHomes`: for each cluster in
discovery order, if the representative is parentless, reparent it onto
the root and give it the next sequential `clusterId`.  Returns the
`(page, clusterId)` pairs of the promoted representatives. -/
def promoteLoop (B : List PageMeta) : List Nat → Nat → List (Nat × Nat)
  | [], _ => []
  | t :: ts, cid =>
    if parentIdx B (clusterRep B t) = none then
      (clusterRep B t, cid) :: promoteLoop B ts (cid + 1)
    else
      promoteLoop B ts cid

/-- All promotions performed by `attachSecondaryHomes`. -/
def promoted (B : List PageMeta) : List (Nat × Nat) := promoteLoop B (clusterTops B) 0

/-- The promoted representatives, in promotion order. -/
def promotedReps (B : List PageMeta) : List Nat := (promoted B).map Prod.fst

/-- Parent links after promotion (`rep.parent = root`). -/
def parentIdx2 (B : List PageMeta) (i : Nat) : Option Nat :=
  if i ∈ promotedReps B then some (rootIdx B) else parentIdx B i

/-- Children lists after promotion (`root.children.push(rep)` in promotion
order). -/
def childrenOf2 (B : List PageMeta) (j : Nat) : List Nat :=
  if j = rootIdx B then childrenOf B j ++ promotedReps B else childrenOf B j

/-- Reachability from the root by following (post-promotion) children
links. -/
inductive Reach (B : List PageMeta) : Nat → Prop where
  | root : Reach B (rootIdx B)
  | step : ∀ i j, Reach B j → i ∈ childrenOf2 B j → Reach B i

/-- Fuel-indexed path computation of `computeHashes`: walk up from the
page collecting ids of every node that still has a parent, so the root is
excluded (`for (let n = p; n && n.parent; n = n.parent) segs.unshift(n.id)`). -/
def pathF (B : List PageMeta) : Nat → Nat → List Str
  | 0, _ => []
  | fuel + 1, i =>
    match parentIdx2 B i with
    | none => []
    | some j => pathF B fuel j ++ [idAt B i]

/-- The hash segments of page `i` (the source stores them joined by `#`;
we keep the segment list, which is what the resolver consumes). -/
def hashSegsOf (B : List PageMeta) (i : Nat) : List Str := pathF B (B.length + 1) i

/-- The resolver `find`: starting at the root, follow the child whose id
matches the next segment; on a failed lookup stop and return the deepest
node reached. -/
def findSegs (B : List PageMeta) : Nat → List Str → Nat
  | cur, [] => cur
  | cur, s :: rest =>
    match (childrenOf2 B cur).find? (fun k => idAt B k == s) with
    | none => cur
    | some c => findSegs B c rest

/-! ### Graph-data builder (`buildGraphData`)

Page objects are embedded as records; the object references (`p.parent`,
`ref: p`) become indices into the collection, and the `_i` expando field
that `buildGraphData` writes onto every page becomes the `underscoreI`
field (`none` embeds the field being absent, as it is before the builder
first runs).
-/

/-- A page as seen by `buildGraphData`. -/
structure GPage where
  underscoreI : Option Nat  -- the `_i` expando field (`none` = not present)
  title : Str
  tags : List Str           -- `tagsSet`, in insertion order
  parent : Option Nat       -- parent reference, as an index
  isSecondary : Bool
  children : List Nat       -- children references, as indices
  deriving DecidableEq, Repr

/-- A graph node `{ id: i, label: p.title, ref: p }` (the page reference
becomes the page index). -/
structure GNode where
  nid : Nat
  label : Str
  ref : Nat
  deriving DecidableEq, Repr

/-- A graph link; `tier` is only set on hierarchical links (JS leaves the
field `undefined` on tag links). -/
structure GLink where
  source : Nat
  target : Nat
  shared : Nat
  kind : Str
  tier : Option Nat
  deriving DecidableEq, Repr

/-- Children of the page at index `i` of the collection. -/
def gChildren (ps : List GPage) (i : Nat) : List Nat :=
  ((ps.get? i).map GPage.children).getD []

/-- Fuel-indexed `descendants` over a `GPage` collection (shared memoized
`descendants` of the source, acting on the same children lists). -/
def gDescF (ps : List GPage) : Nat → Nat → Nat
  | 0, _ => 0
  | fuel + 1, i => (gChildren ps i).foldl (fun acc c => acc + (1 + gDescF ps fuel c)) 0

/-- `descendants(p)` for graph pages. -/
def gDescendants (ps : List GPage) (i : Nat) : Nat := gDescF ps ps.length i

/-- Subtree-size tiers: `n<3?1 : n<6?2 : n<11?3 : n<21?4 : 5`. -/
def tierOf (n : Nat) : Nat :=
  if n < 3 then 1 else if n < 6 then 2 else if n < 11 then 3 else if n < 21 then 4 else 5

/-- An unordered pair key `a|b` with the smaller index first. -/
def pairKey (a b : Nat) : Nat × Nat := if a < b then (a, b) else (b, a)

/-- Insertion-ordered association-list update (JS `Map.set` semantics:
an existing key keeps its position, a new key is appended). -/
def assocUpd {α β} [DecidableEq α] (m : List (α × β)) (k : α) (f : Option β → β) :
    List (α × β) :=
  match m with
  | [] => [(k, f none)]
  | (k1, v1) :: rest =>
    if k1 = k then (k1, f (some v1)) :: rest else (k1, v1) :: assocUpd rest k f

/-- Lookup in an association list. -/
def assocGet {α β} [DecidableEq α] (m : List (α × β)) (k : α) : Option β :=
  (m.find? (fun kv => kv.1 = k)).map Prod.snd

/-- Append an element to a list unless already present (JS `Set.add`). -/
def setAdd (l : List Nat) (x : Nat) : List Nat := if x ∈ l then l else l ++ [x]

/-- `touch(a, b)`: record the adjacency in both directions. -/
def touch (adj : List (Nat × List Nat)) (a b : Nat) : List (Nat × List Nat) :=
  assocUpd (assocUpd adj a (fun o => setAdd (o.getD []) b)) b (fun o => setAdd (o.getD []) a)

/-- Normalization pass of `buildGraphData`: write `p._i = i` on every page
of the collection. -/
def gNormalize (ps : List GPage) : List GPage :=
  ps.enum.map (fun q => { q.2 with underscoreI := some q.1 })

/-- The output `{ nodes, links, adj }` of `buildGraphData`. -/
structure GraphOut where
  nodes : List GNode
  links : List GLink
  adj : List (Nat × List Nat)
  deriving DecidableEq, Repr

/--
The graph-data builder.  It returns the graph data together with the page
collection as it is after the call: the first `forEach` writes the `_i`
index onto every page (a mutation of the shared collection), and every
later step reads that mutated collection.

 * hierarchical links: one per page with a parent, except promoted
   representatives sitting directly under the root; tier from the child's
   descendant count;
 * tag links: shared-tag counts per unordered pair, pairs already linked
   hierarchically skipped;
 * `adj`: both kinds of edges folded into a neighbor map.
-/
def buildGraphData (root : Nat) (ps : List GPage) : GraphOut × List GPage :=
  let ps1 := gNormalize ps
  let nodes := ps1.enum.map (fun q => ({ nid := q.1, label := q.2.title, ref := q.1 } : GNode))
  -- hierarchical edges
  let hierStep := fun (acc : List GLink × List (Nat × Nat) × List (Nat × List Nat))
      (q : Nat × GPage) =>
    match q.2.parent with
    | none => acc
    | some par =>
      if q.2.isSecondary && par = root then acc
      else
        let a := q.2.underscoreI.getD 0
        let b := (((ps1.get? par).bind GPage.underscoreI).getD 0)
        (acc.1 ++ [{ source := a, target := b, shared := 0, kind := ['h','i','e','r'],
                     tier := some (tierOf (gDescendants ps1 q.1)) }],
         acc.2.1 ++ [pairKey a b],
         touch acc.2.2 a b)
  let hier := ps1.enum.foldl hierStep ([], [], [])
  -- shared-tag counts
  let tagToPages := ps1.foldl (fun m (p : GPage) =>
    p.tags.foldl (fun m t => assocUpd m t (fun o => (o.getD []) ++ [p.underscoreI.getD 0])) m)
    ([] : List (Str × List Nat))
  let sharedCounts := tagToPages.foldl (fun m kv =>
    (kv.2.enum.foldl (fun m xi =>
      ((kv.2.drop (xi.1 + 1)).foldl (fun m j =>
        assocUpd m (pairKey xi.2 j) (fun o => o.getD 0 + 1)) m)) m))
    ([] : List ((Nat × Nat) × Nat))
  let tagStep := fun (acc : List GLink × List (Nat × List Nat)) (kc : (Nat × Nat) × Nat) =>
    if kc.1 ∈ hier.2.1 then acc
    else
      (acc.1 ++ [{ source := kc.1.1, target := kc.1.2, shared := kc.2,
                   kind := ['t','a','g'], tier := none }],
       touch acc.2 kc.1.1 kc.1.2)
  let tagged := sharedCounts.foldl tagStep (hier.1, hier.2.2)
  ({ nodes := nodes, links := tagged.1, adj := tagged.2 }, ps1)

/-- A concrete six-page bundle with two secondary clusters: pages `b`/`c`/`d`
form a chain whose top `b` has an unresolvable parent, and page `e` is a
second isolated cluster. -/
def c2B : List PageMeta :=
  [ { id := ['h','o','m','e'], parent := [] },
    { id := ['a'], parent := ['h','o','m','e'] },
    { id := ['b'], parent := ['z','z','z'] },
    { id := ['c'], parent := ['b'] },
    { id := ['d'], parent := ['c'] },
    { id := ['e'], parent := ['q','q','q'] } ]

/-- The page of the C1 failing input: token `foo` matches the title, the
tag set, and nothing else. -/
def c1Page : SPage := { title := "foo".data, tags := "foo".data, content := [], sections := [] }

/-- The C6 failing input: one well-formed metadata block whose body
contains the line `"# "` (heading marker followed by a single whitespace
character and nothing else). -/
def c6Bundle : Str := "<!--id:\"home\" title:\"T\"-->\nIntro\n# \nmore".data

/-- First page of the C8 counterexample: literal `a b` in the title, no
sections. -/
def c8p1 : SPage := { title := "a b".data, tags := [], content := [], sections := [] }

/-- Second page of the C8 counterexample: `a` and `b` separate,
non-adjacent words in the body, which has one heading section. -/
def c8p2 : SPage :=
  { title := ['x'], tags := [], content := "# h\na x b".data,
    sections := [{ sid := ['1'], txt := ['h'], bodyStart := 4, body := "a x b".data,
                   search := "h a x b".data }] }

/-- First page of the C5 counterexample. -/
def c5pA : SPage := { title := "foo bar".data, tags := [], content := [], sections := [] }

/-- Second page of the C5 counterexample: identical to the first except
that the title carries one more literal occurrence of the query token
`foo`, prepended flush against the old one. -/
def c5pB : SPage := { title := "foofoo bar".data, tags := [], content := [], sections := [] }

/-- The graph page of the C9 counterexample (its `_i` field not yet
present, as for any freshly parsed collection). -/
def c9Page : GPage :=
  { underscoreI := none, title := [], tags := [], parent := none,
    isSecondary := false, children := [] }

/-- First page of the C7 counterexample: `foo` only in the tag set. -/
def c7p1 : SPage := { title := "bbb".data, tags := "foo".data, content := [], sections := [] }

/-- Second page of the C7 counterexample: `foo` appears only inside the
longer word `foobar`, but in four heading sections. -/
def c7p2 : SPage :=
  { title := "aaa".data, tags := [],
    content := "# a foobar\n# b foobar\n# c foobar\n# d foobar".data,
    sections :=
      [{ sid := ['1'], txt := "a foobar".data, bodyStart := 11, body := [],
         search := "a foobar ".data },
       { sid := ['2'], txt := "b foobar".data, bodyStart := 22, body := [],
         search := "b foobar ".data },
       { sid := ['3'], txt := "c foobar".data, bodyStart := 33, body := [],
         search := "c foobar ".data },
       { sid := ['4'], txt := "d foobar".data, bodyStart := 44, body := [],
         search := "d foobar ".data }] }

/-- A variant of the second C7 page with a single `foobar` section. -/
def c7w2 : SPage :=
  { title := "aaa".data, tags := [], content := "# a foobar".data,
    sections := [{ sid := ['1'], txt := "a foobar".data, bodyStart := 11, body := [],
                   search := "a foobar ".data }] }

/-! ## Lemmas and claim theorems -/

/-- When every raw token of the query is shorter than two characters, the
token list is empty: every page passes the prefilter and scores exactly
`min(secCountCap, #sections)` (no token weights, and the phrase bonus
requires more than one token). -/
theorem pageScore_shortTokens (p : SPage) (q : Str) (hq : trimWs q ≠ [])
    (hshort : ∀ t ∈ splitWs (lower (trimWs q)), t.length < 2) :
    pageScore p q = some (min WsecCountCap p.sections.length) := by
  have hval : lower (trimWs q) ≠ [] := by
    simpa [lower, List.map_eq_nil_iff] using hq
  have htok : (splitWs (lower (trimWs q))).filter (fun t => 2 ≤ t.length) = [] := by
    rw [List.filter_eq_nil_iff]
    intro t ht
    have := hshort t ht
    simpa using by omega
  unfold pageScore
  simp only [hval, if_neg hval, htok, matchedSecs, List.all_nil, List.map_nil, List.sum_nil,
    List.length_nil, List.filter_true, Bool.not_true]
  simp [matchedSecs]

/--
**C10.**  For a query whose trimmed form is non-empty but all of whose
whitespace-separated tokens are shorter than two characters, every token
is discarded, so `search` qualifies every page and scores it as the
number of its sections capped at `W.secCountCap = 4`.
-/
theorem search_short_token_queries (p : SPage) (q : Str) (hq : trimWs q ≠ [])
    (hshort : ∀ t ∈ splitWs (lower (trimWs q)), t.length < 2) :
    pageScore p q = some (min 4 p.sections.length) :=
  pageScore_shortTokens p q hq hshort

/-- Witness for `search_short_token_queries`: the query `"a b"` and a page
with one section. -/
theorem search_short_token_queries_witness :
    (trimWs ("a b".data) ≠ [] ∧ ∀ t ∈ splitWs (lower (trimWs ("a b".data))), t.length < 2) ∧
      pageScore { title := ['x'], tags := [], content := [], sections :=
          [{ sid := ['1'], txt := ['h'], bodyStart := 4, body := [], search := ['h', ' '] }] }
        ("a b".data) = some (min 4 1) :=
  ⟨⟨by decide, by decide⟩,
    search_short_token_queries _ ("a b".data) (by decide) (by decide)⟩

/--
**C1.**  Evaluation at the failing input of the claim "the tag weight is
added exactly when a whole-word match of the token is found in the tag
set, independently for each of the three fields": for the query `foo` on a
page titled `foo` with tag set `{foo}`, a whole-word match of the token
*is* found in the tag string (at index 0), yet the total score is just the
title weight `5`, not `5 + 3`: the three `.test` calls share one
`g`-flagged regex, so the successful title test leaves `lastIndex = 3` and
the tag test searches `"foo"` only from index 3.
-/
theorem search_tag_weight_lastIndex_bug :
    pageScore c1Page ("foo".data) = some Wtitle ∧
    firstMatchFrom (lower (joinSp (tagsListOf c1Page.tags))) ("foo".data) 0 = some 0 ∧
    Wtitle < Wtitle + Wtag := by decide

/--
**C6.**  Evaluation at the failing input of the claim "for every bundle
containing at least one metadata block, parsing succeeds and returns a
non-empty page collection without raising": this bundle has exactly one
metadata block, yet parsing raises — on the body line `"# "` the heading
*test* regex `/^(#{1,6})\s+/` succeeds but `line.match(/^(#{1,6})\s+(.+)/)`
returns `null`, and destructuring it throws a `TypeError`.  (The
zero-block direction behaves as claimed: an empty bundle fails with the
explicit no-pages error.)
-/
theorem parse_raises_despite_nonzero_blocks :
    parseMarkdownBundle c6Bundle = Except.error ParseErr.headingMatchTypeError ∧
    (blocksOf c6Bundle).length = 1 ∧
    parseMarkdownBundle [] = Except.error ParseErr.noPages := by decide

/-- A heading line starts with `#`, so it is never a fence toggle. -/
theorem not_fence_of_heading (line : Str) (hh : isHeadingLine line = true) :
    isFenceLine line = false := by
  cases line with
  | nil => simp [isHeadingLine, hashRun] at hh
  | cons c rest =>
    have hc : c = '#' := by
      by_contra hne
      simp [isHeadingLine, hashRun, List.takeWhile, hne] at hh
    subst hc
    simp [isFenceLine, List.isPrefixOf]

/--
**C4.**  While the line scanner is inside a fenced code block, a line that
begins with a heading marker (it passes the heading test) is not treated
as a heading: the step leaves the counters, the committed sections, the
pending section and the fence state untouched, and only advances the
offset past the line.
-/
theorem heading_in_fence_ignored (content : Str) (st : ScanSt) (line : Str)
    (hf : st.inFence = true) (hh : isHeadingLine line = true) :
    stepLine content st line = some { st with offset := st.offset + line.length + 1 } := by
  unfold stepLine
  rw [not_fence_of_heading line hh]
  simp [hf]

/-- Witness for `heading_in_fence_ignored`: the scanner sits inside a
fence and meets the line `# not a heading`. -/
theorem heading_in_fence_ignored_witness :
    ({ scanInit with inFence := true } : ScanSt).inFence = true ∧
    isHeadingLine ("# not a heading".data) = true ∧
    stepLine [] { scanInit with inFence := true } ("# not a heading".data) =
      some { scanInit with inFence := true, offset := 16 } :=
  ⟨by decide, by decide,
    heading_in_fence_ignored [] { scanInit with inFence := true } ("# not a heading".data)
      (by decide) (by decide)⟩

/--
**C8, counterexample.**  Both one-character tokens of the query `"a b"`
are discarded (tokens shorter than two characters are dropped), so the
phrase bonus — which requires more than one surviving token — never
applies to this query, and every page scores `min(4, #sections)`.  The
page with the literal `a b` in its title and no sections scores `0`,
strictly below the page whose body holds `a` and `b` as separate
non-adjacent words inside one section.  Both pages are parse-consistent
(their `sections` are what the parser computes from their content).
-/
theorem phrase_bonus_query_a_b_cex :
    sectionsOf c8p1.content = some c8p1.sections ∧
    sectionsOf c8p2.content = some c8p2.sections ∧
    includesSub c8p1.title ("a b".data) = true ∧
    pageScore c8p1 ("a b".data) = some 0 ∧
    pageScore c8p2 ("a b".data) = some 1 := by decide

/--
**C8, amended.**  For the two-word query `"a b"` both tokens are
discarded, so scores reduce to the capped section count: a page containing
the literal substring `a b` in its title scores at least as high as a page
where `a` and `b` occur only as separate non-adjacent words in the body,
*provided* it has at least as many sections.
-/
theorem phrase_bonus_query_a_b_amended (p1 p2 : SPage)
    (htitle : includesSub p1.title ("a b".data) = true)
    (hnum : p2.sections.length ≤ p1.sections.length) :
    ∃ s1 s2, pageScore p1 ("a b".data) = some s1 ∧ pageScore p2 ("a b".data) = some s2 ∧
      s2 ≤ s1 := by
  refine ⟨min WsecCountCap p1.sections.length, min WsecCountCap p2.sections.length,
    pageScore_shortTokens p1 _ (by decide) (by decide),
    pageScore_shortTokens p2 _ (by decide) (by decide), ?_⟩
  exact min_le_min (Nat.le_refl _) hnum

/-- Witness for `phrase_bonus_query_a_b_amended` at the two concrete
counterexample pages, swapped so the section-count hypothesis holds. -/
theorem phrase_bonus_query_a_b_amended_witness :
    (includesSub c8p1.title ("a b".data) = true ∧
      c8p1.sections.length ≤ c8p1.sections.length) ∧
    (∃ s1 s2, pageScore c8p1 ("a b".data) = some s1 ∧
      pageScore c8p1 ("a b".data) = some s2 ∧ s2 ≤ s1) :=
  ⟨⟨by decide, by decide⟩,
    phrase_bonus_query_a_b_amended c8p1 c8p1 (by decide) (by decide)⟩

/--
**C5, counterexample.**  Search scoring is *not* monotonic in literal
title occurrences: `c5pB` is `c5pA` with an additional literal occurrence
of the query token `foo` inserted into the title, yet it scores `0`
against `c5pA`'s `5` — the insertion destroys the word boundary, and the
word-boundary title test is boolean, not occurrence-counting.
-/
theorem title_occurrence_monotonicity_cex :
    c5pB.title = "foo".data ++ c5pA.title ∧
    c5pB.tags = c5pA.tags ∧ c5pB.content = c5pA.content ∧ c5pB.sections = c5pA.sections ∧
    pageScore c5pA ("foo".data) = some 5 ∧
    pageScore c5pB ("foo".data) = some 0 := by decide

/--
**C9, counterexample.**  The graph-data builder mutates the shared page
collection: after `buildGraphData` runs, the single page of this
collection differs from its pre-call state (its `_i` field has been
written). -/
theorem buildGraphData_mutates_cex :
    (buildGraphData 0 [c9Page]).2 ≠ [c9Page] := by decide

/-- The per-index effect of `gNormalize` (with an `enumFrom` offset). -/
theorem gNormalizeFrom_get? (ps : List GPage) (n j : Nat) :
    (((List.enumFrom n ps).map (fun q => { q.2 with underscoreI := some q.1 })).get? j) =
      (ps.get? j).map (fun p => { p with underscoreI := some (n + j) }) := by
  induction ps generalizing n j with
  | nil => simp
  | cons p rest ih =>
    cases j with
    | zero => simp [List.enumFrom]
    | succ j' =>
      simp only [List.enumFrom, List.map_cons, List.get?_cons_succ]
      rw [ih (n + 1) j', show n + 1 + j' = n + (j' + 1) by omega]

/-- Normalizing an already-normalized collection changes nothing. -/
theorem gNormalize_idem (ps : List GPage) : gNormalize (gNormalize ps) = gNormalize ps := by
  apply List.ext_get?
  intro j
  have h1 := gNormalizeFrom_get? ps 0 j
  have h2 := gNormalizeFrom_get? (gNormalize ps) 0 j
  simp only [gNormalize, List.enum] at *
  rw [h2, h1, Option.map_map]
  cases ps.get? j <;> simp

/--
**C9, amended.**  `search` computes its result as a pure function of the
query and the page collection (its embedding above reads pages and returns
scores only), but the graph-data builder does mutate the shared
collection: it writes the `_i` index field of every page — and nothing
else — setting it to the page's position; re-running the builder on its
own output is a no-op (so repeated invocation against a stable snapshot
is still safe).
-/
theorem buildGraphData_mutates_only_index (root : Nat) (ps : List GPage) :
    (buildGraphData root ps).2 = gNormalize ps ∧
    (∀ j p, ps.get? j = some p →
      ((buildGraphData root ps).2).get? j = some { p with underscoreI := some j }) ∧
    buildGraphData root ((buildGraphData root ps).2) = buildGraphData root ps := by
  refine ⟨rfl, ?_, ?_⟩
  · intro j p hj
    have h := gNormalizeFrom_get? ps 0 j
    simp only [gNormalize, List.enum] at *
    rw [show (buildGraphData root ps).2 =
      (List.enumFrom 0 ps).map (fun q => { q.2 with underscoreI := some q.1 }) from rfl]
    rw [h, hj]
    simp
  · show buildGraphData root (gNormalize ps) = buildGraphData root ps
    unfold buildGraphData
    rw [gNormalize_idem]

/-! ### Word-boundary search lemmas -/

theorem matchAt_le_length {s tok : Str} {i : Nat} (htok : tok ≠ [])
    (h : matchAt s tok i = true) : i + tok.length ≤ s.length := by
  unfold matchAt at h
  have h1 : ((s.drop i).take tok.length == tok) = true := by
    cases hb : ((s.drop i).take tok.length == tok) <;> rw [hb] at h <;> simp at h ⊢
  have h2 : (s.drop i).take tok.length = tok := beq_iff_eq.mp h1
  have h3 : ((s.drop i).take tok.length).length = tok.length := by rw [h2]
  rw [List.length_take, List.length_drop] at h3
  have h4 : tok.length ≠ 0 := by
    intro h0; exact htok (List.eq_nil_of_length_eq_zero h0)
  omega

theorem findFromAux_eq_some {s tok : Str} {i fuel k : Nat}
    (h : findFromAux s tok i fuel = some k) :
    i ≤ k ∧ matchAt s tok k = true ∧ ∀ j, i ≤ j → j < k → matchAt s tok j = false := by
  induction fuel generalizing i with
  | zero => simp [findFromAux] at h
  | succ fuel ih =>
    unfold findFromAux at h
    by_cases hm : matchAt s tok i = true
    · rw [if_pos hm] at h
      injection h with h
      subst h
      exact ⟨Nat.le_refl _, hm, fun j hj1 hj2 => ((by omega : False)).elim⟩
    · rw [if_neg hm] at h
      obtain ⟨h1, h2, h3⟩ := ih h
      refine ⟨by omega, h2, fun j hj1 hj2 => ?_⟩
      rcases Nat.eq_or_lt_of_le hj1 with heq | hlt
      · cases hb : matchAt s tok j
        · rfl
        · rw [← heq] at hb; exact absurd hb hm
      · exact h3 j hlt hj2

theorem findFromAux_eq_none {s tok : Str} {i fuel : Nat}
    (h : findFromAux s tok i fuel = none) :
    ∀ j, i ≤ j → j < i + fuel → matchAt s tok j = false := by
  induction fuel generalizing i with
  | zero => intro j h1 h2; omega
  | succ fuel ih =>
    unfold findFromAux at h
    by_cases hm : matchAt s tok i = true
    · rw [if_pos hm] at h; cases h
    · rw [if_neg hm] at h
      intro j h1 h2
      rcases Nat.eq_or_lt_of_le h1 with heq | hlt
      · cases hb : matchAt s tok j
        · rfl
        · rw [← heq] at hb; exact absurd hb hm
      · exact ih h j hlt (by omega)

theorem findFromAux_isSome {s tok : Str} {i fuel k : Nat}
    (hk : matchAt s tok k = true) (h1 : i ≤ k) (h2 : k < i + fuel) :
    (findFromAux s tok i fuel).isSome = true := by
  induction fuel generalizing i with
  | zero => omega
  | succ fuel ih =>
    unfold findFromAux
    by_cases hm : matchAt s tok i = true
    · rw [if_pos hm]; rfl
    · rw [if_neg hm]
      have hne : i ≠ k := fun he => hm (he ▸ hk)
      exact ih (by omega) (by omega)

/-- Characterization of `firstMatchFrom`: it returns exactly the least
match position at or after `start`. -/
theorem firstMatchFrom_eq_some_iff {s tok : Str} {start k : Nat} (htok : tok ≠ []) :
    firstMatchFrom s tok start = some k ↔
      start ≤ k ∧ matchAt s tok k = true ∧
        ∀ j, start ≤ j → j < k → matchAt s tok j = false := by
  constructor
  · exact findFromAux_eq_some
  · rintro ⟨h1, h2, h3⟩
    have hlen := matchAt_le_length htok h2
    have htl : 1 ≤ tok.length := by
      cases tok with
      | nil => exact absurd rfl htok
      | cons a l => simp
    have hsome : (findFromAux s tok start (s.length + 1 - start)).isSome = true :=
      findFromAux_isSome h2 h1 (by omega)
    obtain ⟨k', hk'⟩ := Option.isSome_iff_exists.mp hsome
    obtain ⟨g1, g2, g3⟩ := findFromAux_eq_some hk'
    have hkk : k' = k := by
      rcases Nat.lt_trichotomy k' k with hlt | heq | hgt
      · rw [h3 k' g1 hlt] at g2; exact Bool.noConfusion g2
      · exact heq
      · rw [g3 k h1 hgt] at h2; exact Bool.noConfusion h2
    rw [firstMatchFrom, hk', hkk]

/-- Characterization of a failed search: no match anywhere at or after
`start`. -/
theorem firstMatchFrom_eq_none_iff {s tok : Str} {start : Nat} (htok : tok ≠ []) :
    firstMatchFrom s tok start = none ↔ ∀ j, start ≤ j → matchAt s tok j = false := by
  have htl : 1 ≤ tok.length := by
    cases tok with
    | nil => exact absurd rfl htok
    | cons a l => simp
  constructor
  · intro h j hj
    by_cases hcase : j < start + (s.length + 1 - start)
    · exact findFromAux_eq_none h j hj hcase
    · cases hb : matchAt s tok j
      · rfl
      · have := matchAt_le_length htok hb
        omega
  · intro h
    cases hres : firstMatchFrom s tok start with
    | none => rfl
    | some k =>
      obtain ⟨g1, g2, _⟩ := findFromAux_eq_some hres
      rw [h k g1] at g2
      exact Bool.noConfusion g2

/-- Searching from a later start can only fail when searching from an
earlier start failed. -/
theorem firstMatchFrom_none_mono {s tok : Str} {a b : Nat} (htok : tok ≠ [])
    (hab : a ≤ b) (h : firstMatchFrom s tok a = none) :
    firstMatchFrom s tok b = none := by
  rw [firstMatchFrom_eq_none_iff htok] at h ⊢
  exact fun j hj => h j (by omega)

/-- A successful search from a later start implies a successful search
from an earlier start, ending at the same position or earlier. -/
theorem firstMatchFrom_le_of_le {s tok : Str} {a b k : Nat} (htok : tok ≠ [])
    (hab : a ≤ b) (h : firstMatchFrom s tok b = some k) :
    ∃ k', firstMatchFrom s tok a = some k' ∧ k' ≤ k := by
  obtain ⟨h1, h2, _⟩ := (firstMatchFrom_eq_some_iff htok).mp h
  cases hres : firstMatchFrom s tok a with
  | none =>
    rw [firstMatchFrom_eq_none_iff htok] at hres
    rw [hres k (by omega)] at h2
    exact Bool.noConfusion h2
  | some k' =>
    obtain ⟨g1, g2, g3⟩ := (firstMatchFrom_eq_some_iff htok).mp hres
    refine ⟨k', rfl, ?_⟩
    by_contra hgt
    push_neg at hgt
    rw [g3 k (by omega) hgt] at h2
    exact Bool.noConfusion h2

/-! ### Appending a space-separated word to the title -/

theorem wordAtB_append_space (A t2 : Str) (j : Nat) (hj : j ≤ A.length) :
    wordAtB (A ++ ' ' :: t2) j = wordAtB A j := by
  rcases Nat.lt_or_ge j A.length with hlt | hge
  · unfold wordAtB
    rw [List.get?_append hlt]
  · have hj' : j = A.length := Nat.le_antisymm hj hge
    subst hj'
    unfold wordAtB
    rw [List.get?_append_right (Nat.le_refl _), Nat.sub_self,
      List.get?_eq_none.mpr (Nat.le_refl _)]
    rfl

theorem boundB_append_space (A t2 : Str) (j : Nat) (hj : j ≤ A.length) :
    boundB (A ++ ' ' :: t2) j = boundB A j := by
  unfold boundB
  rw [wordAtB_append_space A t2 j hj]
  by_cases h0 : j = 0
  · rw [if_pos h0, if_pos h0]
  · rw [if_neg h0, if_neg h0, wordAtB_append_space A t2 (j - 1) (by omega)]

theorem matchAt_append_space {A t2 tok : Str} {j : Nat}
    (h : j + tok.length ≤ A.length) :
    matchAt (A ++ ' ' :: t2) tok j = matchAt A tok j := by
  unfold matchAt
  rw [List.drop_append_of_le_length (by omega),
    List.take_append_of_le_length (by rw [List.length_drop]; omega),
    boundB_append_space A t2 j (by omega), boundB_append_space A t2 (j + tok.length) h]

theorem firstMatchFrom_append_space {A t2 tok : Str} {k : Nat} (htok : tok ≠ [])
    (h : firstMatchFrom A tok 0 = some k) :
    firstMatchFrom (A ++ ' ' :: t2) tok 0 = some k := by
  obtain ⟨h1, h2, h3⟩ := (firstMatchFrom_eq_some_iff htok).mp h
  have hk := matchAt_le_length htok h2
  rw [firstMatchFrom_eq_some_iff htok]
  refine ⟨h1, ?_, fun j hj1 hj2 => ?_⟩
  · rw [matchAt_append_space hk]; exact h2
  · rw [matchAt_append_space (by omega)]; exact h3 j hj1 hj2

/-- Appending a space-separated word to the title never decreases the
shared-regex per-token field score: if the old title already matched, its
first match (and hence the leaked `lastIndex`) is unchanged; if the
appended word makes the title match where it did not before, the title
weight `5` more than offsets the at most `3 + 1` that the leaked
`lastIndex` can cost in the tag and body tests. -/
theorem tokenFieldScore_append_space (A' tagsL bodyL w t : Str) (ht : t ≠ []) :
    tokenFieldScore A' tagsL bodyL t ≤ tokenFieldScore (A' ++ ' ' :: w) tagsL bodyL t := by
  cases hA : firstMatchFrom A' t 0 with
  | some k =>
    have hB := @firstMatchFrom_append_space A' w t k ht hA
    simp only [tokenFieldScore, testG, hA, hB]
    exact Nat.le_refl _
  | none =>
    cases hB : firstMatchFrom (A' ++ ' ' :: w) t 0 with
    | none =>
      simp only [tokenFieldScore, testG, hA, hB]
      exact Nat.le_refl _
    | some e =>
      cases hTB : firstMatchFrom tagsL t (e + t.length) with
      | some p2 =>
        obtain ⟨p1, hTA0, hple⟩ := firstMatchFrom_le_of_le ht (Nat.zero_le _) hTB
        cases hBB : firstMatchFrom bodyL t (p2 + t.length) with
        | some b2 =>
          obtain ⟨b1, hBA, _⟩ :=
            @firstMatchFrom_le_of_le bodyL t (p1 + t.length) (p2 + t.length) b2 ht
              (by omega) hBB
          simp only [tokenFieldScore, testG, hA, hB, hTA0, hTB, hBA, hBB]
          simp [Wtitle, Wtag, Wbody]
        | none =>
          cases hBA : firstMatchFrom bodyL t (p1 + t.length) with
          | some b1 =>
            simp only [tokenFieldScore, testG, hA, hB, hTA0, hTB, hBA, hBB]
            simp [Wtitle, Wtag, Wbody]
          | none =>
            simp only [tokenFieldScore, testG, hA, hB, hTA0, hTB, hBA, hBB]
            simp [Wtitle, Wtag, Wbody]
      | none =>
        cases hTA : firstMatchFrom tagsL t 0 with
        | some p1 =>
          cases hBA : firstMatchFrom bodyL t (p1 + t.length) with
          | some b1 =>
            obtain ⟨b0, hB0, _⟩ := firstMatchFrom_le_of_le ht (Nat.zero_le _) hBA
            simp only [tokenFieldScore, testG, hA, hB, hTA, hTB, hBA, hB0]
            simp [Wtitle, Wtag, Wbody]
          | none =>
            cases hB0 : firstMatchFrom bodyL t 0 with
            | some b0 =>
              simp only [tokenFieldScore, testG, hA, hB, hTA, hTB, hBA, hB0]
              simp [Wtitle, Wtag, Wbody]
            | none =>
              simp only [tokenFieldScore, testG, hA, hB, hTA, hTB, hBA, hB0]
              simp [Wtitle, Wtag, Wbody]
        | none =>
          cases hB0 : firstMatchFrom bodyL t 0 with
          | some b0 =>
            simp only [tokenFieldScore, testG, hA, hB, hTA, hTB, hB0]
            simp [Wtitle, Wtag, Wbody]
          | none =>
            simp only [tokenFieldScore, testG, hA, hB, hTA, hTB, hB0]
            simp [Wtitle, Wtag, Wbody]

/-! ### Substring (infix) helpers -/

theorem infix_iff_drop_take {t s : Str} :
    t <:+: s ↔ ∃ i, i + t.length ≤ s.length ∧ (s.drop i).take t.length = t := by
  constructor
  · rintro ⟨s1, s2, rfl⟩
    refine ⟨s1.length, by simp, ?_⟩
    rw [List.append_assoc, List.drop_left, List.take_left]
  · rintro ⟨i, hlen, hext⟩
    refine ⟨s.take i, s.drop (i + t.length), ?_⟩
    have h1 : s.drop i = t ++ (s.drop i).drop t.length := by
      conv_lhs => rw [← List.take_append_drop t.length (s.drop i)]
      rw [hext]
    have h2 : (s.drop i).drop t.length = s.drop (i + t.length) := by
      rw [List.drop_drop, Nat.add_comm]
    rw [List.append_assoc, ← h2, ← h1, List.take_append_drop]

theorem infix_extend_right {t a : Str} (x : Str) (h : t <:+: a) : t <:+: a ++ x :=
  h.trans (List.prefix_append a x).isInfix

theorem infix_extend_left {t b : Str} (x : Str) (h : t <:+: b) : t <:+: x ++ b :=
  h.trans (List.suffix_append x b).isInfix

/-- A substring that avoids the separator character lies entirely on one
side of it. -/
theorem infix_split_at_sep {t a b : Str} {c : Char} (hc : c ∉ t)
    (h : t <:+: a ++ c :: b) : t <:+: a ∨ t <:+: b := by
  obtain ⟨i, hlen, hext⟩ := infix_iff_drop_take.mp h
  have hablen : (a ++ c :: b).length = a.length + 1 + b.length := by simp; omega
  by_cases h1 : i + t.length ≤ a.length
  · left
    rw [infix_iff_drop_take]
    refine ⟨i, h1, ?_⟩
    have heq : ((a ++ c :: b).drop i).take t.length = (a.drop i).take t.length := by
      rw [List.drop_append_of_le_length (by omega),
        List.take_append_of_le_length (by rw [List.length_drop]; omega)]
    rw [← heq]
    exact hext
  · by_cases h2 : a.length + 1 ≤ i
    · right
      rw [infix_iff_drop_take]
      refine ⟨i - a.length - 1, by omega, ?_⟩
      have heq : ((a ++ c :: b).drop i).take t.length =
          (b.drop (i - a.length - 1)).take t.length := by
        rw [List.drop_append_eq_append_drop,
          List.drop_eq_nil_of_le (by omega), List.nil_append,
          show i - a.length = (i - a.length - 1) + 1 by omega, List.drop_succ_cons,
          Nat.add_sub_cancel]
      rw [← heq]
      exact hext
    · exfalso
      apply hc
      have hidx : t.get? (a.length - i) = some c := by
        rw [← hext, List.get?_take (by omega), List.get?_drop,
          show i + (a.length - i) = a.length by omega,
          List.get?_append_right (Nat.le_refl _), Nat.sub_self]
        rfl
      exact List.get?_mem hidx

/-! ### Token facts -/

theorem splitWs_no_ws : ∀ (s : Str), ∀ t ∈ splitWs s, ∀ c ∈ t, isWs c = false := by
  intro s
  induction s using splitWs.induct with
  | case1 => intro t ht; simp [splitWs] at ht
  | case2 c hws =>
    intro t ht
    simp only [splitWs, if_pos hws] at ht
    simp at ht
  | case3 c hws =>
    intro t ht
    simp only [splitWs, if_neg hws] at ht
    simp only [List.mem_singleton] at ht
    subst ht
    intro d hd
    simp only [List.mem_singleton] at hd
    subst hd
    simp [hws]
  | case4 c d rest hws ih =>
    intro t ht
    rw [splitWs, if_pos hws] at ht
    exact ih t ht
  | case5 c d rest hcw hdw ih =>
    intro t ht
    rw [splitWs, if_neg hcw, if_pos hdw] at ht
    rcases List.mem_cons.mp ht with rfl | hmem
    · intro e he
      simp only [List.mem_singleton] at he
      subst he
      simp [hcw]
    · exact ih t hmem
  | case6 c d rest hcw hdw ih =>
    intro t ht
    rw [splitWs, if_neg hcw, if_neg hdw] at ht
    cases hsp : splitWs (d :: rest) with
    | nil =>
      rw [hsp] at ht
      simp only [consHead, List.mem_singleton] at ht
      subst ht
      intro e he
      simp only [List.mem_singleton] at he
      subst he
      simp [hcw]
    | cons h0 tl =>
      rw [hsp] at ht
      simp only [consHead, List.mem_cons] at ht
      rcases ht with rfl | hmem
      · intro e he
        rcases List.mem_cons.mp he with rfl | he0
        · simp [hcw]
        · exact ih _ (by rw [hsp]; exact List.mem_cons_self h0 tl) e he0
      · exact ih t (by rw [hsp]; exact List.mem_cons_of_mem h0 hmem)

theorem tokensOf_no_ws {q t : Str} (h : t ∈ tokensOf q) : ∀ c ∈ t, isWs c = false := by
  unfold tokensOf at h
  exact splitWs_no_ws _ t (List.mem_of_mem_filter h)

theorem tokensOf_length {q t : Str} (h : t ∈ tokensOf q) : 2 ≤ t.length := by
  unfold tokensOf at h
  have := List.of_mem_filter h
  simpa using this

theorem tokensOf_ne_nil {q t : Str} (h : t ∈ tokensOf q) : t ≠ [] := by
  have := tokensOf_length h
  intro h0
  rw [h0] at this
  simp at this

theorem tokensOf_no_space {q t : Str} (h : t ∈ tokensOf q) : ' ' ∉ t := by
  intro hmem
  have := tokensOf_no_ws h ' ' hmem
  simp [isWs] at this

/-! ### Lowercasing distributes -/

theorem lowerC_space : lowerC ' ' = ' ' := by decide

theorem lower_append (a b : Str) : lower (a ++ b) = lower a ++ lower b :=
  List.map_append _ _ _

theorem lower_append_space (a b : Str) : lower (a ++ ' ' :: b) = lower a ++ ' ' :: lower b := by
  rw [lower_append]
  show lower a ++ lowerC ' ' :: lower b = _
  rw [lowerC_space]

/-- A whitespace-free token that occurs in a page's searchable string
still occurs after a space-separated word is appended to the title (the
insertion point is flanked by spaces, which the token cannot contain). -/
theorem includes_searchStr_append_title {p : SPage} {tok t : Str}
    (hsp : ' ' ∉ t)
    (h : includesSub (searchStrOf p) t = true) :
    includesSub (searchStrOf { p with title := p.title ++ ' ' :: tok }) t = true := by
  unfold searchStrOf at h ⊢
  dsimp only at h ⊢
  rw [lower_append_space] at h
  rw [show (p.title ++ ' ' :: tok) ++ ' ' :: (joinSp (tagsListOf p.tags) ++ ' ' :: p.content) =
      p.title ++ ' ' :: (tok ++ ' ' :: (joinSp (tagsListOf p.tags) ++ ' ' :: p.content)) by
    simp [List.append_assoc]]
  rw [lower_append_space, lower_append_space]
  rw [includesSub, decide_eq_true_iff] at h ⊢
  rcases infix_split_at_sep hsp h with hL | hR
  · exact infix_extend_right _ hL
  · rw [lower_append_space] at hR ⊢
    have step := infix_extend_left (lower tok ++ [' ']) hR
    have heq : (lower tok ++ [' ']) ++ (lower (joinSp (tagsListOf p.tags)) ++ ' ' :: lower p.content) =
        lower tok ++ ' ' :: (lower (joinSp (tagsListOf p.tags)) ++ ' ' :: lower p.content) := by
      simp
    rw [heq] at step
    have step2 := infix_extend_left (lower p.title ++ [' ']) step
    have heq2 : (lower p.title ++ [' ']) ++
        (lower tok ++ ' ' :: (lower (joinSp (tagsListOf p.tags)) ++ ' ' :: lower p.content)) =
        lower p.title ++ ' ' ::
          (lower tok ++ ' ' :: (lower (joinSp (tagsListOf p.tags)) ++ ' ' :: lower p.content)) := by
      simp
    rw [heq2] at step2
    exact step2

/-- Closed form of `pageScore` for a qualifying page under a non-empty
query. -/
theorem pageScore_eq (p : SPage) (q : Str) (hval : lower (trimWs q) ≠ [])
    (hq : ((splitWs (lower (trimWs q))).filter (fun t => 2 ≤ t.length)).all
        (fun t2 => includesSub (searchStrOf p) t2) = true) :
    pageScore p q = some
      ((((splitWs (lower (trimWs q))).filter (fun t => 2 ≤ t.length)).map
          (tokenFieldScore (lower p.title) (lower (joinSp (tagsListOf p.tags)))
            (lower p.content))).sum +
        (if 1 < ((splitWs (lower (trimWs q))).filter (fun t => 2 ≤ t.length)).length then
          (if includesSub (lower p.title) (lower (trimWs q)) = true then WphraseTitle
           else if includesSub (lower p.content) (lower (trimWs q)) = true then WphraseBody
           else 0)
         else 0) +
        min WsecCountCap
          (matchedSecs ((splitWs (lower (trimWs q))).filter (fun t => 2 ≤ t.length)) p).length) := by
  simp only [pageScore]
  rw [if_neg hval, hq]
  simp only [Bool.not_true, Bool.false_eq_true, if_false]
  by_cases hph : 1 < ((splitWs (lower (trimWs q))).filter (fun t => 2 ≤ t.length)).length
  · rw [if_pos hph, if_pos hph]
  · rw [if_neg hph, if_neg hph]

/--
**C5, amended.**  Appending an additional occurrence of a query token to a
page's title as a new whitespace-separated word (a space followed by the
token) never decreases the page's total score: the page still qualifies,
each token's field score does not drop (see
`tokenFieldScore_append_space`), the phrase bonus can only move up from
the body tier to the title tier, and the section boost is unchanged.
-/
theorem title_append_token_monotone (p : SPage) (q tok : Str)
    (htok : tok ∈ tokensOf q) (s : Nat)
    (h : pageScore p q = some s) :
    ∃ s2, pageScore { p with title := p.title ++ ' ' :: tok } q = some s2 ∧ s ≤ s2 := by
  have hval : lower (trimWs q) ≠ [] := by
    intro h0
    simp [pageScore, h0] at h
  have hq : ((splitWs (lower (trimWs q))).filter (fun t => 2 ≤ t.length)).all
      (fun t2 => includesSub (searchStrOf p) t2) = true := by
    by_contra hc
    have hfalse : ((splitWs (lower (trimWs q))).filter (fun t => 2 ≤ t.length)).all
        (fun t2 => includesSub (searchStrOf p) t2) = false := by
      cases hb : ((splitWs (lower (trimWs q))).filter (fun t => 2 ≤ t.length)).all
          (fun t2 => includesSub (searchStrOf p) t2)
      · rfl
      · exact absurd hb hc
    simp only [pageScore] at h
    rw [if_neg hval, hfalse] at h
    simp at h
  have hq2 : ((splitWs (lower (trimWs q))).filter (fun t => 2 ≤ t.length)).all
      (fun t2 => includesSub (searchStrOf { p with title := p.title ++ ' ' :: tok }) t2) =
        true := by
    rw [List.all_eq_true] at hq ⊢
    intro t2 ht2
    have ht2' : t2 ∈ tokensOf q := ht2
    exact includes_searchStr_append_title (tokensOf_no_space ht2') (hq t2 ht2)
  rw [pageScore_eq p q hval hq] at h
  rw [pageScore_eq _ q hval hq2]
  injection h with h
  subst h
  refine ⟨_, rfl, ?_⟩
  dsimp only
  rw [lower_append_space p.title tok]
  apply Nat.add_le_add
  apply Nat.add_le_add
  · refine List.sum_le_sum (fun t2 ht2 => ?_)
    have ht2' : t2 ∈ tokensOf q := ht2
    exact tokenFieldScore_append_space _ _ _ _ _ (tokensOf_ne_nil ht2')
  · by_cases hph : 1 < ((splitWs (lower (trimWs q))).filter (fun t => 2 ≤ t.length)).length
    · rw [if_pos hph, if_pos hph]
      cases hA : includesSub (lower p.title) (lower (trimWs q)) with
      | true =>
        have hB : includesSub (lower p.title ++ ' ' :: lower tok) (lower (trimWs q)) = true := by
          rw [includesSub, decide_eq_true_iff] at hA ⊢
          exact infix_extend_right _ hA
        rw [hB]
      | false =>
        simp only [Bool.false_eq_true, if_false]
        cases hB : includesSub (lower p.title ++ ' ' :: lower tok) (lower (trimWs q)) with
        | true =>
          simp only [if_pos rfl]
          cases includesSub (lower p.content) (lower (trimWs q)) <;>
            simp [WphraseTitle, WphraseBody]
        | false =>
          simp only [Bool.false_eq_true, if_false]
          exact Nat.le_refl _
    · rw [if_neg hph, if_neg hph]
  · exact Nat.le_refl _

/-- Witness for `title_append_token_monotone`: appending `" foo"` to the
title `"foo bar"` under the query `foo`. -/
theorem title_append_token_monotone_witness :
    (("foo".data ∈ tokensOf ("foo".data)) ∧ pageScore c5pA ("foo".data) = some 5) ∧
      ∃ s2, pageScore { c5pA with title := c5pA.title ++ ' ' :: "foo".data } ("foo".data) =
        some s2 ∧ 5 ≤ s2 :=
  ⟨⟨by decide, by decide⟩,
    title_append_token_monotone c5pA ("foo".data) ("foo".data) (by decide) 5 (by decide)⟩

/-! ### Sections are substrings of the content -/

theorem sliceStr_subpart (s : Str) (a b : Nat) : sliceStr s a b <:+: s :=
  ((List.take_prefix _ _).isInfix).trans (List.drop_suffix _ _).isInfix

theorem trimWs_subpart (s : Str) : trimWs s <:+: s := by
  unfold trimWs
  have h1 : s.dropWhile isWs <:+ s := List.dropWhile_suffix _
  have h2 : ((s.dropWhile isWs).reverse.dropWhile isWs).reverse <+: s.dropWhile isWs := by
    rw [← List.reverse_suffix]
    simpa using List.dropWhile_suffix isWs
  exact h2.isInfix.trans h1.isInfix

/-- Every chunk returned by the line splitter is a substring of the input,
and the first chunk is a prefix. -/
theorem linesOf_spec : ∀ (s : Str),
    (∀ l ∈ linesOf s, l <:+: s) ∧ (∀ h0 t0, linesOf s = h0 :: t0 → h0 <+: s) := by
  intro s
  induction s using linesOf.induct with
  | case1 =>
    refine ⟨?_, ?_⟩
    · intro l hl
      simp only [linesOf, List.mem_singleton] at hl
      subst hl
      exact List.nil_infix
    · intro h0 t0 h
      simp only [linesOf] at h
      injection h with h1 _
      subst h1
      exact List.nil_prefix
  | case2 rest ih =>
    refine ⟨?_, ?_⟩
    · intro l hl
      simp only [linesOf, List.mem_cons] at hl
      rcases hl with rfl | hmem
      · exact List.nil_infix
      · exact infix_extend_left ['\n'] (ih.1 l hmem)
    · intro h0 t0 h
      simp only [linesOf] at h
      injection h with h1 _
      subst h1
      exact List.nil_prefix
  | case3 rest ih =>
    refine ⟨?_, ?_⟩
    · intro l hl
      simp only [linesOf, List.mem_cons] at hl
      rcases hl with rfl | hmem
      · exact List.nil_infix
      · exact infix_extend_left ['\r', '\n'] (ih.1 l hmem)
    · intro h0 t0 h
      simp only [linesOf] at h
      injection h with h1 _
      subst h1
      exact List.nil_prefix
  | case4 c rest hne1 hne2 ih =>
    have heq := linesOf.eq_4 c rest hne1 hne2
    refine ⟨?_, ?_⟩
    · intro l hl
      rw [heq] at hl
      cases hsp : linesOf rest with
      | nil =>
        rw [hsp] at hl
        simp only [consHead, List.mem_singleton] at hl
        subst hl
        exact (show [c] <+: c :: rest from ⟨rest, rfl⟩).isInfix
      | cons h0 t0 =>
        rw [hsp] at hl
        simp only [consHead, List.mem_cons] at hl
        rcases hl with rfl | hmem
        · have hp : h0 <+: rest := ih.2 h0 t0 hsp
          obtain ⟨t, ht⟩ := hp
          exact (show c :: h0 <+: c :: rest from ⟨t, by rw [List.cons_append, ht]⟩).isInfix
        · exact infix_extend_left [c] (ih.1 l (by rw [hsp]; exact List.mem_cons_of_mem h0 hmem))
    · intro h0 t0 h
      rw [heq] at h
      cases hsp : linesOf rest with
      | nil =>
        rw [hsp] at h
        simp only [consHead] at h
        injection h with ha _
        subst ha
        exact ⟨rest, rfl⟩
      | cons g0 g1 =>
        rw [hsp] at h
        simp only [consHead] at h
        injection h with ha _
        subst ha
        obtain ⟨t, ht⟩ := ih.2 g0 g1 hsp
        exact ⟨t, by rw [List.cons_append, ht]⟩

theorem commitPrev_good {content : Str} {p : PrevRec} {e : Option Nat}
    (hp : p.txt <:+: content) : SecGood content (commitPrev content p e) := by
  unfold commitPrev SecGood
  cases e with
  | some e0 =>
    exact ⟨rfl, hp, (trimWs_subpart _).trans (sliceStr_subpart content p.bodyStart e0)⟩
  | none =>
    exact ⟨rfl, hp, (trimWs_subpart _).trans (List.drop_suffix _ _).isInfix⟩

theorem stepLine_good {content : Str} {st st' : ScanSt} {line : Str}
    (hline : line <:+: content)
    (hsec : ∀ sec ∈ st.sections, SecGood content sec)
    (hprev : ∀ p, st.prev = some p → p.txt <:+: content)
    (h : stepLine content st line = some st') :
    (∀ sec ∈ st'.sections, SecGood content sec) ∧
      (∀ p, st'.prev = some p → p.txt <:+: content) := by
  simp only [stepLine] at h
  set st1 := if isFenceLine line = true then { st with inFence := !st.inFence } else st with hst1
  have hs1 : st1.sections = st.sections := by rw [hst1]; split <;> rfl
  have hp1 : st1.prev = st.prev := by rw [hst1]; split <;> rfl
  by_cases hh : (!st1.inFence && isHeadingLine line) = true
  · rw [if_pos hh] at h
    by_cases hrem : (line.drop (hashRun line)).length = 1
    · rw [if_pos hrem] at h
      exact Option.noConfusion h
    · rw [if_neg hrem] at h
      injection h with h
      subst h
      constructor
      · intro sec hs
        dsimp only at hs
        rw [hp1, hs1] at hs
        cases hpv : st.prev with
        | none => rw [hpv] at hs; exact hsec sec hs
        | some p =>
          rw [hpv] at hs
          rcases List.mem_append.mp hs with hin | hlast
          · exact hsec sec hin
          · rw [List.mem_singleton] at hlast
            subst hlast
            exact commitPrev_good (hprev p hpv)
      · intro p hp
        dsimp only at hp
        injection hp with hp
        subst hp
        exact (trimWs_subpart _).trans ((List.drop_suffix _ _).isInfix.trans hline)
  · rw [if_neg hh] at h
    injection h with h
    subst h
    refine ⟨?_, ?_⟩
    · intro sec hs
      dsimp only at hs
      rw [hs1] at hs
      exact hsec sec hs
    · intro p hp
      dsimp only at hp
      rw [hp1] at hp
      exact hprev p hp

theorem scanLines_good {content : Str} : ∀ (lns : List Str) (st st' : ScanSt),
    (∀ l ∈ lns, l <:+: content) →
    (∀ sec ∈ st.sections, SecGood content sec) →
    (∀ p, st.prev = some p → p.txt <:+: content) →
    List.foldlM (stepLine content) st lns = some st' →
    (∀ sec ∈ st'.sections, SecGood content sec) ∧
      (∀ p, st'.prev = some p → p.txt <:+: content) := by
  intro lns
  induction lns with
  | nil =>
    intro st st' _ hs hp h
    simp only [List.foldlM_nil] at h
    injection h with h
    subst h
    exact ⟨hs, hp⟩
  | cons l ls ih =>
    intro st st' hl hs hp h
    simp only [List.foldlM_cons] at h
    cases h1 : stepLine content st l with
    | none => rw [h1] at h; simp at h
    | some st1 =>
      rw [h1] at h
      simp only [Option.bind_eq_bind, Option.some_bind] at h
      obtain ⟨hs1, hp1⟩ := stepLine_good (hl l (List.mem_cons_self _ _)) hs hp h1
      exact ih st1 st' (fun x hx => hl x (List.mem_cons_of_mem _ hx)) hs1 hp1 h

/-- Every section the parser commits satisfies `SecGood`. -/
theorem sectionsOf_good {content : Str} {secs : List Section}
    (h : sectionsOf content = some secs) : ∀ sec ∈ secs, SecGood content sec := by
  unfold sectionsOf at h
  cases hf : List.foldlM (stepLine content) scanInit (linesOf content) with
  | none => rw [hf] at h; simp at h
  | some st =>
    rw [hf] at h
    simp only [Option.map_some'] at h
    obtain ⟨hs, hp⟩ := scanLines_good (linesOf content) scanInit st
      (fun l hl => (linesOf_spec content).1 l hl)
      (by intro sec hsec; simp [scanInit] at hsec)
      (by intro p hp; simp [scanInit] at hp) hf
    cases hprev : st.prev with
    | none =>
      rw [hprev] at h
      dsimp only at h
      injection h with h
      subst h
      exact hs
    | some p =>
      rw [hprev] at h
      dsimp only at h
      injection h with h
      subst h
      intro sec hsec
      rcases List.mem_append.mp hsec with hin | hlast
      · exact hs sec hin
      · rw [List.mem_singleton] at hlast
        subst hlast
        exact commitPrev_good (hp p hprev)

/-! ### Tag and substring facts for the word-boundary ranking claim -/

/-- Without a literal occurrence there is no word-boundary match, from any
search start. -/
theorem no_word_match_of_not_infix {s t : Str} (htok : t ≠ [])
    (h : includesSub s t = false) : ∀ st, firstMatchFrom s t st = none := by
  intro st
  rw [firstMatchFrom_eq_none_iff htok]
  intro j _
  cases hb : matchAt s t j with
  | false => rfl
  | true =>
    exfalso
    have hlen := matchAt_le_length htok hb
    have hex : (s.drop j).take t.length = t := by
      have h1 : ((s.drop j).take t.length == t) = true := by
        unfold matchAt at hb
        cases hc : ((s.drop j).take t.length == t)
        · rw [hc] at hb; simp at hb
        · rfl
      exact beq_iff_eq.mp h1
    have hinf : t <:+: s := infix_iff_drop_take.mpr ⟨j, hlen, hex⟩
    rw [includesSub, decide_eq_true hinf] at h
    exact Bool.noConfusion h

/-- The searchable string, decomposed at its two separator spaces. -/
theorem searchStrOf_eq (p : SPage) : searchStrOf p =
    lower p.title ++ ' ' :: (lower (joinSp (tagsListOf p.tags)) ++ ' ' :: lower p.content) := by
  unfold searchStrOf
  rw [lower_append_space, lower_append_space]

/-- A member of a tag list sits between a space (or the start) and a space
(or the end) in the joined tag string. -/
theorem joinSp_mem_structure : ∀ (l : List Str) (t : Str), t ∈ l →
    ∃ pre suf, joinSp l = pre ++ t ++ suf ∧
      (pre = [] ∨ ∃ pre0, pre = pre0 ++ [' ']) ∧
      (suf = [] ∨ ∃ suf0, suf = ' ' :: suf0) := by
  intro l
  induction l with
  | nil => intro t ht; simp at ht
  | cons s rest ih =>
    intro t ht
    rcases List.mem_cons.mp ht with rfl | hmem
    · cases rest with
      | nil => exact ⟨[], [], by simp [joinSp], Or.inl rfl, Or.inl rfl⟩
      | cons r rs =>
        exact ⟨[], ' ' :: joinSp (r :: rs), by simp [joinSp], Or.inl rfl, Or.inr ⟨_, rfl⟩⟩
    · cases rest with
      | nil => simp at hmem
      | cons r rs =>
        obtain ⟨pre, suf, heq, hpre, hsuf⟩ := ih t hmem
        refine ⟨s ++ ' ' :: pre, suf, ?_, ?_, hsuf⟩
        · show joinSp (s :: r :: rs) = (s ++ ' ' :: pre) ++ t ++ suf
          rw [show joinSp (s :: r :: rs) = s ++ ' ' :: joinSp (r :: rs) from rfl, heq]
          simp [List.append_assoc]
        · rcases hpre with rfl | ⟨pre0, rfl⟩
          · exact Or.inr ⟨s, rfl⟩
          · exact Or.inr ⟨s ++ ' ' :: pre0, by simp⟩

/-- The token `foo` matches with word boundaries at its slot in a string
of the shape `pre ++ foo ++ suf` when the slot is flanked by spaces or the
string ends. -/
theorem matchAt_foo_slot (pre suf : Str)
    (hpre : pre = [] ∨ ∃ pre0, pre = pre0 ++ [' '])
    (hsuf : suf = [] ∨ ∃ suf0, suf = ' ' :: suf0) :
    matchAt (pre ++ ("foo".data ++ suf)) ("foo".data) pre.length = true := by
  unfold matchAt
  rw [Bool.and_eq_true, Bool.and_eq_true]
  refine ⟨⟨?_, ?_⟩, ?_⟩
  · rw [List.drop_left]
    rw [show ("foo".data ++ suf).take (("foo".data).length) = "foo".data from
      List.take_left _ _]
    exact beq_self_eq_true _
  · unfold boundB
    have hcur : wordAtB (pre ++ ("foo".data ++ suf)) pre.length = true := by
      unfold wordAtB
      rw [List.get?_append_right (Nat.le_refl _), Nat.sub_self]
      rfl
    rcases hpre with rfl | ⟨pre0, rfl⟩
    · rw [hcur]
      rfl
    · have hne : (pre0 ++ [' ']).length ≠ 0 := by simp
      rw [if_neg hne, hcur]
      have hprevc : wordAtB ((pre0 ++ [' ']) ++ ("foo".data ++ suf))
          ((pre0 ++ [' ']).length - 1) = false := by
        unfold wordAtB
        rw [List.get?_append (by simp)]
        rw [show (pre0 ++ [' ']).length - 1 = pre0.length by simp]
        rw [List.get?_append_right (Nat.le_refl _), Nat.sub_self]
        rfl
      rw [hprevc]
      rfl
  · unfold boundB
    have hne : pre.length + ("foo".data).length ≠ 0 := by simp
    rw [if_neg hne]
    have hprevc : wordAtB (pre ++ ("foo".data ++ suf))
        (pre.length + ("foo".data).length - 1) = true := by
      unfold wordAtB
      rw [show pre.length + ("foo".data).length - 1 = pre.length + 2 by simp]
      rw [List.get?_append_right (by omega)]
      rw [show pre.length + 2 - pre.length = 2 by omega]
      rfl
    rw [hprevc]
    have hcur : wordAtB (pre ++ ("foo".data ++ suf))
        (pre.length + ("foo".data).length) = false := by
      unfold wordAtB
      rw [List.get?_append_right (by omega)]
      rw [show pre.length + ("foo".data).length - pre.length = 3 by simp]
      rcases hsuf with rfl | ⟨suf0, rfl⟩
      · rw [List.get?_eq_none.mpr (by simp)]
      · rfl
    rw [hcur]
    rfl

/-- A tag list containing `foo` produces a word-boundary match in the
(lowercased) joined tag string. -/
theorem tags_word_match {l : List Str} (h : ("foo".data) ∈ l) :
    ∃ k, firstMatchFrom (lower (joinSp l)) ("foo".data) 0 = some k := by
  obtain ⟨pre, suf, heq, hpre, hsuf⟩ := joinSp_mem_structure l _ h
  have hlow : lower (joinSp l) = lower pre ++ ("foo".data ++ lower suf) := by
    rw [heq, lower_append, lower_append]
    rw [show lower ("foo".data) = "foo".data by decide, List.append_assoc]
  have hpre2 : lower pre = [] ∨ ∃ pre0, lower pre = pre0 ++ [' '] := by
    rcases hpre with rfl | ⟨pre0, rfl⟩
    · exact Or.inl rfl
    · exact Or.inr ⟨lower pre0, by rw [lower_append, show lower [' '] = [' '] by decide]⟩
  have hsuf2 : lower suf = [] ∨ ∃ suf0, lower suf = ' ' :: suf0 := by
    rcases hsuf with rfl | ⟨suf0, rfl⟩
    · exact Or.inl rfl
    · exact Or.inr ⟨lower suf0, by rw [show lower (' ' :: suf0) = lowerC ' ' :: lower suf0 from rfl, lowerC_space]⟩
  have hm := matchAt_foo_slot (lower pre) (lower suf) hpre2 hsuf2
  rw [← hlow] at hm
  cases hres : firstMatchFrom (lower (joinSp l)) ("foo".data) 0 with
  | some k => exact ⟨k, rfl⟩
  | none =>
    rw [firstMatchFrom_eq_none_iff (by decide)] at hres
    rw [hres _ (Nat.zero_le _)] at hm
    exact Bool.noConfusion hm

/-- A page whose body has no occurrence of the token has no matching
sections. -/
theorem matchedSecs_nil_of_clean_body {p1 : SPage}
    (hwf : sectionsOf p1.content = some p1.sections)
    (hbody : includesSub (lower p1.content) ("foo".data) = false) :
    matchedSecs ["foo".data] p1 = [] := by
  rw [matchedSecs, List.filter_eq_nil_iff]
  intro sec hsec
  obtain ⟨hse, htxt, hbdy⟩ := sectionsOf_good hwf sec hsec
  simp only [List.all_cons, List.all_nil, Bool.and_true, Bool.not_eq_true]
  cases hc : includesSub sec.search ("foo".data) with
  | false => rfl
  | true =>
    exfalso
    rw [hse, lower_append_space, includesSub, decide_eq_true_iff] at hc
    have hsp : ' ' ∉ "foo".data := by decide
    rw [includesSub] at hbody
    rcases infix_split_at_sep hsp hc with hL | hR
    · have : ("foo".data) <:+: lower p1.content := hL.trans (htxt.map lowerC)
      rw [decide_eq_true this] at hbody
      exact Bool.noConfusion hbody
    · have : ("foo".data) <:+: lower p1.content := hR.trans (hbdy.map lowerC)
      rw [decide_eq_true this] at hbody
      exact Bool.noConfusion hbody

/--
**C7, counterexample.**  For the query `foo`, a page with `foo` only in
its tags scores exactly the tag weight `3`, but a page in which `foo`
occurs only inside `foobar` still collects the per-matching-section count
boost: with four sections whose text contains `foobar` it scores
`min(4, 4) = 4 > 3` and is ranked *above* the tag page.  Both pages are
parse-consistent.
-/
theorem word_boundary_tag_rank_cex :
    (sectionsOf c7p1.content = some c7p1.sections ∧
      sectionsOf c7p2.content = some c7p2.sections ∧
      "foo".data ∈ tagsListOf c7p1.tags ∧
      includesSub (lower c7p1.title) ("foo".data) = false ∧
      includesSub (lower c7p1.content) ("foo".data) = false ∧
      firstMatchFrom (lower c7p2.title) ("foo".data) 0 = none ∧
      firstMatchFrom (lower (joinSp (tagsListOf c7p2.tags))) ("foo".data) 0 = none ∧
      firstMatchFrom (lower c7p2.content) ("foo".data) 0 = none ∧
      includesSub (searchStrOf c7p2) ("foo".data) = true ∧
      pageScore c7p1 ("foo".data) = some 3 ∧
      pageScore c7p2 ("foo".data) = some 4) ∧
    ¬ RankedAbove c7p1 c7p2 ("foo".data) := by
  refine ⟨by decide, ?_⟩
  rintro ⟨sp, sq, h1, h2, h3⟩
  rw [show pageScore c7p1 ("foo".data) = some 3 by decide] at h1
  rw [show pageScore c7p2 ("foo".data) = some 4 by decide] at h2
  injection h1 with h1
  injection h2 with h2
  subst h1
  subst h2
  rcases h3 with h3 | ⟨h3, _⟩ <;> omega

/--
**C7, amended.**  For the query `foo`, a page `p1` in which `foo` occurs
only in the tag set (absent from title and body, `p1` parse-consistent) is
ranked strictly above any page `p2` in which `foo` occurs only as a proper
substring of longer words (no word-boundary occurrence in title, tags or
body, but a literal substring occurrence somewhere), *provided* `p2` has
at most two sections containing the substring — `p1` scores the tag
weight `3` while `p2` scores only the capped count of its matching
sections.
-/
theorem word_boundary_tag_rank (p1 p2 : SPage)
    (h1tag : "foo".data ∈ tagsListOf p1.tags)
    (h1title : includesSub (lower p1.title) ("foo".data) = false)
    (h1body : includesSub (lower p1.content) ("foo".data) = false)
    (h1wf : sectionsOf p1.content = some p1.sections)
    (h2title : firstMatchFrom (lower p2.title) ("foo".data) 0 = none)
    (h2tags : firstMatchFrom (lower (joinSp (tagsListOf p2.tags))) ("foo".data) 0 = none)
    (h2body : firstMatchFrom (lower p2.content) ("foo".data) 0 = none)
    (h2q : includesSub (searchStrOf p2) ("foo".data) = true)
    (h2sec : (matchedSecs ["foo".data] p2).length ≤ 2) :
    RankedAbove p1 p2 ("foo".data) := by
  have hval : lower (trimWs ("foo".data)) ≠ [] := by decide
  have htoks : (splitWs (lower (trimWs ("foo".data)))).filter (fun t => 2 ≤ t.length) =
      ["foo".data] := by decide
  have hq1foo : includesSub (searchStrOf p1) ("foo".data) = true := by
    rw [searchStrOf_eq, includesSub, decide_eq_true_iff]
    obtain ⟨pre, suf, heq, _, _⟩ := joinSp_mem_structure _ _ h1tag
    have hfj : ("foo".data) <:+: lower (joinSp (tagsListOf p1.tags)) := by
      have hbase : ("foo".data) <:+: joinSp (tagsListOf p1.tags) := ⟨pre, suf, heq.symm⟩
      have hmap := hbase.map lowerC
      rw [show ("foo".data).map lowerC = "foo".data by decide] at hmap
      exact hmap
    have s1 : ("foo".data) <:+:
        lower (joinSp (tagsListOf p1.tags)) ++ ' ' :: lower p1.content :=
      infix_extend_right _ hfj
    have s2 := infix_extend_left (lower p1.title ++ [' ']) s1
    have heq2 : (lower p1.title ++ [' ']) ++
        (lower (joinSp (tagsListOf p1.tags)) ++ ' ' :: lower p1.content) =
        lower p1.title ++ ' ' :: (lower (joinSp (tagsListOf p1.tags)) ++ ' ' :: lower p1.content) := by
      simp
    rw [heq2] at s2
    exact s2
  have hq1 : ((splitWs (lower (trimWs ("foo".data)))).filter (fun t => 2 ≤ t.length)).all
      (fun t2 => includesSub (searchStrOf p1) t2) = true := by
    rw [htoks]
    simp [hq1foo]
  have hq2all : ((splitWs (lower (trimWs ("foo".data)))).filter (fun t => 2 ≤ t.length)).all
      (fun t2 => includesSub (searchStrOf p2) t2) = true := by
    rw [htoks]
    simp [h2q]
  obtain ⟨ktag, hktag⟩ := tags_word_match h1tag
  have htitle_none : firstMatchFrom (lower p1.title) ("foo".data) 0 = none :=
    no_word_match_of_not_infix (by decide) h1title 0
  have hbody_none := no_word_match_of_not_infix (by decide) h1body
  have hs1 : pageScore p1 ("foo".data) = some 3 := by
    rw [pageScore_eq p1 _ hval hq1, htoks, matchedSecs_nil_of_clean_body h1wf h1body]
    simp only [List.map_cons, List.map_nil, List.sum_cons, List.sum_nil, List.length_cons,
      List.length_nil]
    simp only [tokenFieldScore, testG, htitle_none, hktag,
      hbody_none (ktag + ("foo".data).length)]
    norm_num [Wtag, WsecCountCap]
  have hs2 : pageScore p2 ("foo".data) =
      some (min WsecCountCap (matchedSecs ["foo".data] p2).length) := by
    rw [pageScore_eq p2 _ hval hq2all, htoks]
    simp only [List.map_cons, List.map_nil, List.sum_cons, List.sum_nil, List.length_cons,
      List.length_nil]
    simp only [tokenFieldScore, testG, h2title, h2tags, h2body]
    norm_num
  refine ⟨3, min WsecCountCap (matchedSecs ["foo".data] p2).length, hs1, hs2, Or.inl ?_⟩
  have hmin := Nat.min_le_right WsecCountCap (matchedSecs ["foo".data] p2).length
  omega

/-! ### Hierarchy lemmas: chain lengths, ranks and descendant counts -/

theorem byIdIdx_lt {B : List PageMeta} {s : Str} {i : Nat} (h : byIdIdx B s = some i) :
    i < B.length := by
  have hmem := List.mem_of_find?_eq_some h
  rw [List.mem_reverse, List.mem_range] at hmem
  exact hmem

theorem parentIdx_lt {B : List PageMeta} {i j : Nat} (h : parentIdx B i = some j) :
    j < B.length := by
  unfold parentIdx at h
  by_cases hr : i = rootIdx B
  · rw [if_pos hr] at h; exact Option.noConfusion h
  · rw [if_neg hr] at h; exact byIdIdx_lt h

theorem parentIdx_rootIdx (B : List PageMeta) : parentIdx B (rootIdx B) = none := by
  unfold parentIdx
  rw [if_pos rfl]

theorem childrenOf_mem {B : List PageMeta} {i j : Nat} :
    i ∈ childrenOf B j ↔ i < B.length ∧ parentIdx B i = some j := by
  unfold childrenOf
  rw [List.mem_filter, List.mem_range]
  constructor
  · rintro ⟨h1, h2⟩
    exact ⟨h1, by simpa using h2⟩
  · rintro ⟨h1, h2⟩
    exact ⟨h1, by simpa using h2⟩

theorem dedupFirstAux_mem {α} [DecidableEq α] :
    ∀ (l seen : List α) (a : α), a ∈ dedupFirstAux l seen ↔ a ∈ l ∧ a ∉ seen := by
  intro l
  induction l with
  | nil => intro seen a; simp [dedupFirstAux]
  | cons b bs ih =>
    intro seen a
    unfold dedupFirstAux
    by_cases hb : b ∈ seen
    · rw [if_pos hb, ih]
      constructor
      · rintro ⟨h1, h2⟩
        exact ⟨List.mem_cons_of_mem _ h1, h2⟩
      · rintro ⟨h1, h2⟩
        rcases List.mem_cons.mp h1 with rfl | h1
        · exact absurd hb h2
        · exact ⟨h1, h2⟩
    · rw [if_neg hb]
      constructor
      · intro h
        rcases List.mem_cons.mp h with rfl | h
        · exact ⟨List.mem_cons_self _ _, hb⟩
        · obtain ⟨h1, h2⟩ := (ih (b :: seen) a).mp h
          refine ⟨List.mem_cons_of_mem _ h1, fun hc => h2 (List.mem_cons_of_mem _ hc)⟩
      · rintro ⟨h1, h2⟩
        rcases List.mem_cons.mp h1 with rfl | h1
        · exact List.mem_cons_self _ _
        · by_cases hab : a = b
          · subst hab; exact List.mem_cons_self _ _
          · exact List.mem_cons_of_mem _ ((ih (b :: seen) a).mpr
              ⟨h1, fun hc => (List.mem_cons.mp hc).elim hab h2⟩)

theorem dedupFirst_mem {α} [DecidableEq α] {l : List α} {a : α} :
    a ∈ dedupFirst l ↔ a ∈ l := by
  unfold dedupFirst
  rw [dedupFirstAux_mem]
  simp

theorem uplenF_mono {B : List PageMeta} :
    ∀ {f f' i u}, uplenF B f i = some u → f ≤ f' → uplenF B f' i = some u := by
  intro f
  induction f with
  | zero =>
    intro f' i u h _
    unfold uplenF at h
    cases hp : parentIdx B i with
    | none =>
      rw [hp] at h
      dsimp only at h
      injection h with h
      subst h
      cases f' with
      | zero => unfold uplenF; rw [hp]
      | succ f'' => unfold uplenF; rw [hp]
    | some j => rw [hp] at h; exact Option.noConfusion h
  | succ f0 ih =>
    intro f' i u h hle
    unfold uplenF at h
    cases hp : parentIdx B i with
    | none =>
      rw [hp] at h
      dsimp only at h
      injection h with h
      subst h
      cases f' with
      | zero => unfold uplenF; rw [hp]
      | succ f'' => unfold uplenF; rw [hp]
    | some j =>
      rw [hp] at h
      dsimp only at h
      cases hj : uplenF B f0 j with
      | none => rw [hj] at h; exact Option.noConfusion h
      | some u0 =>
        rw [hj] at h
        simp only [Option.map_some'] at h
        injection h with h
        cases f' with
        | zero => omega
        | succ f1 =>
          unfold uplenF
          rw [hp]
          dsimp only
          rw [ih hj (show f0 ≤ f1 by omega)]
          simp only [Option.map_some']
          rw [h]

theorem uplenF_le {B : List PageMeta} :
    ∀ {f i u}, uplenF B f i = some u → u ≤ f := by
  intro f
  induction f with
  | zero =>
    intro i u h
    unfold uplenF at h
    cases hp : parentIdx B i with
    | none => rw [hp] at h; injection h with h; omega
    | some j => rw [hp] at h; exact Option.noConfusion h
  | succ f0 ih =>
    intro i u h
    unfold uplenF at h
    cases hp : parentIdx B i with
    | none => rw [hp] at h; injection h with h; omega
    | some j =>
      rw [hp] at h
      dsimp only at h
      cases hj : uplenF B f0 j with
      | none => rw [hj] at h; exact Option.noConfusion h
      | some u0 =>
        rw [hj] at h
        simp only [Option.map_some'] at h
        injection h with h
        have := ih hj
        omega

theorem topOfF_parentless {B : List PageMeta} {i : Nat}
    (h : parentIdx B i = none) : ∀ f, topOfF B f i = i := by
  intro f
  cases f with
  | zero => rfl
  | succ f0 => unfold topOfF; rw [h]

theorem uplenF_isSome_of_top {B : List PageMeta} :
    ∀ (f i : Nat), parentIdx B (topOfF B f i) = none → ∃ u, uplenF B f i = some u := by
  intro f
  induction f with
  | zero =>
    intro i h
    unfold topOfF at h
    exact ⟨0, by unfold uplenF; rw [h]⟩
  | succ f0 ih =>
    intro i h
    unfold topOfF at h
    cases hp : parentIdx B i with
    | none => exact ⟨0, by unfold uplenF; rw [hp]⟩
    | some j =>
      rw [hp] at h
      dsimp only at h
      obtain ⟨u0, hu0⟩ := ih j h
      refine ⟨u0 + 1, ?_⟩
      unfold uplenF
      rw [hp]
      dsimp only
      rw [hu0]
      rfl

/-- Under `Acyclic`, every in-range page has a defined chain length. -/
theorem uplen_defined {B : List PageMeta} (hA : Acyclic B) {i : Nat} (hi : i < B.length) :
    uplenF B B.length i = some (uplen B i) := by
  obtain ⟨u, hu⟩ := uplenF_isSome_of_top B.length i (hA i hi)
  rw [uplen, hu]
  rfl

theorem uplenF_parent {B : List PageMeta} {f i j u : Nat}
    (h : uplenF B (f + 1) i = some u) (hp : parentIdx B i = some j) :
    ∃ u0, uplenF B f j = some u0 ∧ u = u0 + 1 := by
  unfold uplenF at h
  rw [hp] at h
  dsimp only at h
  cases hj : uplenF B f j with
  | none => rw [hj] at h; exact Option.noConfusion h
  | some u0 =>
    rw [hj] at h
    simp only [Option.map_some'] at h
    injection h with h
    exact ⟨u0, rfl, h.symm⟩

theorem uplen_parent_eq {B : List PageMeta} (hA : Acyclic B) {c j : Nat}
    (hc : c < B.length) (hp : parentIdx B c = some j) :
    uplen B c = uplen B j + 1 := by
  have hd := uplen_defined hA hc
  have hn : B.length = (B.length - 1) + 1 := by omega
  rw [hn] at hd
  obtain ⟨u0, hu0, heq⟩ := uplenF_parent hd hp
  have hj : uplenF B B.length j = some u0 := uplenF_mono hu0 (by omega)
  rw [heq, uplen, hj]
  rfl

theorem uplen_le_length {B : List PageMeta} (hA : Acyclic B) {i : Nat}
    (hi : i < B.length) : uplen B i ≤ B.length :=
  uplenF_le (uplen_defined hA hi)

theorem rk_child {B : List PageMeta} (hA : Acyclic B) {c j : Nat}
    (hc : c ∈ childrenOf B j) : rkOf B c < rkOf B j := by
  obtain ⟨hlt, hp⟩ := childrenOf_mem.mp hc
  have h1 := uplen_parent_eq hA hlt hp
  have h2 := uplen_le_length hA hlt
  unfold rkOf
  omega

theorem foldl_add_init (g : Nat → Nat) :
    ∀ (l : List Nat) (a : Nat), l.foldl (fun acc c => acc + g c) a = a + (l.map g).sum := by
  intro l
  induction l with
  | nil => intro a; simp
  | cons c cs ih =>
    intro a
    simp only [List.foldl_cons, List.map_cons, List.sum_cons, ih]
    omega

theorem descF_succ (B : List PageMeta) (f i : Nat) :
    descF B (f + 1) i = ((childrenOf B i).map (fun c => 1 + descF B f c)).sum := by
  show (childrenOf B i).foldl (fun acc c => acc + (1 + descF B f c)) 0 = _
  rw [foldl_add_init (fun c => 1 + descF B f c), Nat.zero_add]

theorem descF_stab {B : List PageMeta} (hA : Acyclic B) :
    ∀ (r : Nat), ∀ i, rkOf B i = r → ∀ f, r ≤ f → descF B f i = descF B r i := by
  intro r
  induction r using Nat.strong_induction_on with
  | _ r ih =>
    intro i hr f hf
    cases r with
    | zero =>
      have hch : childrenOf B i = [] := by
        cases hcc : childrenOf B i with
        | nil => rfl
        | cons c cs =>
          exfalso
          have hmem : c ∈ childrenOf B i := by rw [hcc]; exact List.mem_cons_self _ _
          have := rk_child hA hmem
          omega
      cases f with
      | zero => rfl
      | succ f0 =>
        rw [descF_succ, hch]
        rfl
    | succ r0 =>
      cases f with
      | zero => omega
      | succ f0 =>
        rw [descF_succ, descF_succ]
        congr 1
        apply List.map_congr_left
        intro c hc
        have hrk := rk_child hA hc
        rw [hr] at hrk
        have h1 : descF B f0 c = descF B (rkOf B c) c :=
          ih (rkOf B c) (by omega) c rfl f0 (by omega)
        have h2 : descF B r0 c = descF B (rkOf B c) c :=
          ih (rkOf B c) (by omega) c rfl r0 (by omega)
        rw [h1, h2]

theorem descendants_child_lt {B : List PageMeta} (hA : Acyclic B) {c j : Nat}
    (hc : c ∈ childrenOf B j) : descendants B c < descendants B j := by
  have hrk := rk_child hA hc
  have hrkn : rkOf B j ≤ B.length := by unfold rkOf; omega
  have hstabj : descF B B.length j = descF B (rkOf B j) j :=
    descF_stab hA (rkOf B j) j rfl B.length hrkn
  have hr1 : rkOf B j = (rkOf B j - 1) + 1 := by omega
  have hterm : (1 + descF B (rkOf B j - 1) c) ∈
      ((childrenOf B j).map (fun x => 1 + descF B (rkOf B j - 1) x)) :=
    List.mem_map_of_mem _ hc
  have hsum : (1 + descF B (rkOf B j - 1) c) ≤
      ((childrenOf B j).map (fun x => 1 + descF B (rkOf B j - 1) x)).sum :=
    List.single_le_sum (fun x _ => Nat.zero_le x) _ hterm
  have hstabc1 : descF B (rkOf B j - 1) c = descF B (rkOf B c) c :=
    descF_stab hA (rkOf B c) c rfl _ (by omega)
  have hstabc2 : descF B B.length c = descF B (rkOf B c) c :=
    descF_stab hA (rkOf B c) c rfl B.length (by unfold rkOf; omega)
  unfold descendants
  rw [hstabj, hr1, descF_succ, hstabc2]
  rw [hstabc1] at hsum
  omega

theorem topOfF_stab {B : List PageMeta} :
    ∀ (u : Nat), ∀ f i, uplenF B f i = some u → ∀ g, u ≤ g → topOfF B g i = topOfF B u i := by
  intro u
  induction u with
  | zero =>
    intro f i h g _
    have hp : parentIdx B i = none := by
      cases hp : parentIdx B i with
      | none => rfl
      | some j =>
        exfalso
        cases f with
        | zero => unfold uplenF at h; rw [hp] at h; dsimp only at h; exact Option.noConfusion h
        | succ f0 =>
          obtain ⟨u0, _, heq⟩ := uplenF_parent h hp
          omega
    rw [topOfF_parentless hp, topOfF_parentless hp]
  | succ u0 ih =>
    intro f i h g hg
    cases hp : parentIdx B i with
    | none =>
      rw [topOfF_parentless hp, topOfF_parentless hp]
    | some j =>
      cases f with
      | zero =>
        unfold uplenF at h
        rw [hp] at h
        dsimp only at h
        exact Option.noConfusion h
      | succ f0 =>
        obtain ⟨u1, hu1, heq⟩ := uplenF_parent h hp
        have hu0 : u1 = u0 := by omega
        subst hu0
        cases g with
        | zero => omega
        | succ g0 =>
          show topOfF B (g0 + 1) i = topOfF B (u1 + 1) i
          unfold topOfF
          rw [hp]
          dsimp only
          rw [ih f0 j hu1 g0 (by omega), ih f0 j hu1 u1 (Nat.le_refl _)]

theorem topOfF_parent {B : List PageMeta} {f i j : Nat} (hp : parentIdx B i = some j) :
    topOfF B (f + 1) i = topOfF B f j := by
  conv_lhs => rw [topOfF]
  rw [hp]

theorem top_eq_of_parent {B : List PageMeta} (hA : Acyclic B) {i j : Nat}
    (hi : i < B.length) (hp : parentIdx B i = some j) : topOf B i = topOf B j := by
  have hd := uplen_defined hA hi
  have hn : B.length = (B.length - 1) + 1 := by omega
  rw [hn] at hd
  obtain ⟨u0, hu0, heq⟩ := uplenF_parent hd hp
  have e1 : topOfF B B.length i = topOfF B (B.length - 1) j := by
    conv_lhs => rw [hn]
    exact topOfF_parent hp
  have e2 := topOfF_stab u0 (B.length - 1) j hu0 (B.length - 1) (uplenF_le hu0)
  have e3 := topOfF_stab u0 B.length j
    (uplenF_mono hu0 (show B.length - 1 ≤ B.length by omega)) B.length
    (by have := uplenF_le hu0; omega)
  show topOfF B B.length i = topOfF B B.length j
  rw [e1, e2, e3]

theorem topOfF_lt {B : List PageMeta} : ∀ (f i : Nat), i < B.length → topOfF B f i < B.length := by
  intro f
  induction f with
  | zero => intro i hi; exact hi
  | succ f0 ih =>
    intro i hi
    unfold topOfF
    cases hp : parentIdx B i with
    | none => exact hi
    | some j => exact ih j (parentIdx_lt hp)

theorem topOf_spec_of_mem_tops {B : List PageMeta} (hA : Acyclic B) {t : Nat}
    (ht : t ∈ clusterTops B) :
    t < B.length ∧ parentIdx B t = none ∧ t ≠ rootIdx B ∧ topOf B t = t := by
  unfold clusterTops at ht
  rw [dedupFirst_mem, List.mem_filterMap] at ht
  obtain ⟨i, hi, hta⟩ := ht
  rw [List.mem_range] at hi
  dsimp only at hta
  by_cases hr : topOf B i = rootIdx B
  · rw [if_pos hr] at hta
    exact Option.noConfusion hta
  · rw [if_neg hr] at hta
    injection hta with hta
    subst hta
    have hpnone : parentIdx B (topOf B i) = none := hA i hi
    exact ⟨topOfF_lt B.length i hi, hpnone, hr, topOfF_parentless hpnone B.length⟩

theorem mem_members_iff {B : List PageMeta} {m t : Nat} :
    m ∈ clusterMembers B t ↔ m < B.length ∧ topOf B m = t := by
  unfold clusterMembers
  rw [List.mem_filter, List.mem_range]
  constructor
  · rintro ⟨h1, h2⟩
    exact ⟨h1, by simpa using h2⟩
  · rintro ⟨h1, h2⟩
    exact ⟨h1, by simpa using h2⟩

theorem tops_mem_members {B : List PageMeta} (hA : Acyclic B) {t : Nat}
    (ht : t ∈ clusterTops B) : t ∈ clusterMembers B t := by
  obtain ⟨h1, _, _, h4⟩ := topOf_spec_of_mem_tops hA ht
  exact mem_members_iff.mpr ⟨h1, h4⟩

/-- The cluster top strictly dominates every other cluster member in
descendant count (it is a strict ancestor of each of them). -/
theorem desc_lt_top {B : List PageMeta} (hA : Acyclic B) {t m : Nat}
    (hm : m < B.length) (htop : topOf B m = t) (hne : m ≠ t) :
    descendants B m < descendants B t := by
  have H : ∀ u, ∀ m0, m0 < B.length → uplen B m0 = u → topOf B m0 = t → m0 ≠ t →
      descendants B m0 < descendants B t := by
    intro u
    induction u using Nat.strong_induction_on with
    | _ u ih =>
      intro m0 hm0 hum htop0 hne0
      cases hp : parentIdx B m0 with
      | none =>
        exfalso
        have hid : topOf B m0 = m0 := topOfF_parentless hp B.length
        exact hne0 (by rw [← htop0, hid])
      | some j =>
        have hj : j < B.length := parentIdx_lt hp
        have hcm : m0 ∈ childrenOf B j := childrenOf_mem.mpr ⟨hm0, hp⟩
        have hdd := descendants_child_lt hA hcm
        have htopj : topOf B j = t := (top_eq_of_parent hA hm0 hp).symm.trans htop0
        by_cases hjt : j = t
        · rw [hjt] at hdd
          exact hdd
        · have hupar := uplen_parent_eq hA hm0 hp
          exact Nat.lt_trans hdd
            (ih (uplen B j) (by omega) j hj rfl htopj hjt)
  exact H (uplen B m) m hm rfl htop hne

theorem foldl_pick_ge_init (B : List PageMeta) :
    ∀ (l : List Nat) (a : Nat), descendants B a ≤ descendants B
      (l.foldl (fun x y => if descendants B x < descendants B y then y else x) a) := by
  intro l
  induction l with
  | nil => intro a; exact Nat.le_refl _
  | cons b bs ih =>
    intro a
    simp only [List.foldl_cons]
    by_cases hc : descendants B a < descendants B b
    · rw [if_pos hc]
      exact Nat.le_trans (Nat.le_of_lt hc) (ih b)
    · rw [if_neg hc]
      exact ih a

theorem foldl_pick_ge_mem (B : List PageMeta) :
    ∀ (l : List Nat) (a t : Nat), t ∈ l → descendants B t ≤ descendants B
      (l.foldl (fun x y => if descendants B x < descendants B y then y else x) a) := by
  intro l
  induction l with
  | nil => intro a t ht; simp at ht
  | cons b bs ih =>
    intro a t ht
    simp only [List.foldl_cons]
    rcases List.mem_cons.mp ht with rfl | hmem
    · by_cases hc : descendants B a < descendants B t
      · rw [if_pos hc]
        exact foldl_pick_ge_init B bs t
      · rw [if_neg hc]
        exact Nat.le_trans (Nat.le_of_not_lt hc) (foldl_pick_ge_init B bs a)
    · exact ih _ t hmem

theorem foldl_pick_mem (B : List PageMeta) :
    ∀ (l : List Nat) (a : Nat),
      (l.foldl (fun x y => if descendants B x < descendants B y then y else x) a) = a ∨
      (l.foldl (fun x y => if descendants B x < descendants B y then y else x) a) ∈ l := by
  intro l
  induction l with
  | nil => intro a; exact Or.inl rfl
  | cons b bs ih =>
    intro a
    simp only [List.foldl_cons]
    by_cases hc : descendants B a < descendants B b
    · rw [if_pos hc]
      rcases ih b with h | h
      · exact Or.inr (by rw [h]; exact List.mem_cons_self _ _)
      · exact Or.inr (List.mem_cons_of_mem _ h)
    · rw [if_neg hc]
      rcases ih a with h | h
      · exact Or.inl h
      · exact Or.inr (List.mem_cons_of_mem _ h)

/-- The reduce in `attachSecondaryHomes` always selects the cluster top:
it is the strict maximum, so the first-maximum tie-break never fires. -/
theorem clusterRep_eq {B : List PageMeta} (hA : Acyclic B) {t : Nat}
    (ht : t ∈ clusterTops B) : clusterRep B t = t := by
  have htm := tops_mem_members hA ht
  unfold clusterRep
  dsimp only
  have hhead : (clusterMembers B t).headD 0 ∈ clusterMembers B t := by
    cases hms : clusterMembers B t with
    | nil => rw [hms] at htm; exact absurd htm (List.not_mem_nil t)
    | cons a l => exact List.mem_cons_self _ _
  have hmem : ((clusterMembers B t).foldl
      (fun x y => if descendants B x < descendants B y then y else x)
      ((clusterMembers B t).headD 0)) ∈ clusterMembers B t := by
    rcases foldl_pick_mem B (clusterMembers B t) ((clusterMembers B t).headD 0) with h | h
    · rw [h]; exact hhead
    · exact h
  have hge := foldl_pick_ge_mem B (clusterMembers B t) ((clusterMembers B t).headD 0) t htm
  by_contra hne
  obtain ⟨hrlt, hrtop⟩ := mem_members_iff.mp hmem
  have := desc_lt_top hA hrlt hrtop hne
  omega

theorem promoteLoop_eq {B : List PageMeta} (hA : Acyclic B) :
    ∀ (ts : List Nat) (cid : Nat), (∀ t ∈ ts, t ∈ clusterTops B) →
      promoteLoop B ts cid = (List.enumFrom cid ts).map (fun p => (p.2, p.1)) := by
  intro ts
  induction ts with
  | nil => intro cid _; rfl
  | cons t ts ih =>
    intro cid hmem
    have ht := hmem t (List.mem_cons_self _ _)
    have hrep := clusterRep_eq hA ht
    have hpn : parentIdx B (clusterRep B t) = none := by
      rw [hrep]
      exact (topOf_spec_of_mem_tops hA ht).2.1
    unfold promoteLoop
    rw [if_pos hpn, hrep, ih (cid + 1) (fun x hx => hmem x (List.mem_cons_of_mem _ hx))]
    rfl

theorem promoted_eq {B : List PageMeta} (hA : Acyclic B) :
    promoted B = (clusterTops B).enum.map (fun p => (p.2, p.1)) := by
  unfold promoted
  rw [promoteLoop_eq hA (clusterTops B) 0 (fun t ht => ht)]
  rfl

theorem promotedReps_eq {B : List PageMeta} (hA : Acyclic B) :
    promotedReps B = clusterTops B := by
  unfold promotedReps
  rw [promoted_eq hA]
  have key : ∀ (ts : List Nat) (cid : Nat),
      ((List.enumFrom cid ts).map (fun p => (p.2, p.1))).map Prod.fst = ts := by
    intro ts
    induction ts with
    | nil => intro cid; rfl
    | cons t ts ih =>
      intro cid
      simp only [List.enumFrom, List.map_cons]
      rw [ih]
  exact key (clusterTops B) 0

/-- After promotion, every in-range page is reachable from the root by
following children links. -/
theorem reach_all {B : List PageMeta} (hA : Acyclic B) :
    ∀ i, i < B.length → Reach B i := by
  have H : ∀ u, ∀ i, i < B.length → uplen B i = u → Reach B i := by
    intro u
    induction u using Nat.strong_induction_on with
    | _ u ih =>
      intro i hi hu
      by_cases hroot : i = rootIdx B
      · rw [hroot]
        exact Reach.root
      · cases hp : parentIdx B i with
        | some j =>
          have hj : j < B.length := parentIdx_lt hp
          have hchild : i ∈ childrenOf B j := childrenOf_mem.mpr ⟨hi, hp⟩
          have hupar := uplen_parent_eq hA hi hp
          have hreachj : Reach B j := ih (uplen B j) (by omega) j hj rfl
          apply Reach.step i j hreachj
          unfold childrenOf2
          by_cases hjr : j = rootIdx B
          · rw [if_pos hjr]
            exact List.mem_append_left _ hchild
          · rw [if_neg hjr]
            exact hchild
        | none =>
          have htop : topOf B i = i := topOfF_parentless hp B.length
          have hmem : i ∈ clusterTops B := by
            unfold clusterTops
            rw [dedupFirst_mem, List.mem_filterMap]
            refine ⟨i, List.mem_range.mpr hi, ?_⟩
            dsimp only
            rw [htop, if_neg hroot]
          apply Reach.step i (rootIdx B) Reach.root
          unfold childrenOf2
          rw [if_pos rfl]
          exact List.mem_append_right _ (by rw [promotedReps_eq hA]; exact hmem)
  exact fun i hi => H (uplen B i) i hi rfl

/--
**C2.**  For every bundle without parent-reference cycles: the promotion
pass promotes exactly one page per cluster outside the root, namely the
cluster key (its topmost ancestor) with sequential `clusterId`s assigned
in cluster-discovery order; each promoted page is the member of its
cluster with the strictly largest descendant count (so the
first-encountered tie-break never has to fire); and afterwards every page
is reachable from the root along children links.
-/
theorem attachSecondaryHomes_spec (B : List PageMeta) (hA : Acyclic B) :
    promoted B = (clusterTops B).enum.map (fun p => (p.2, p.1)) ∧
    (∀ t ∈ clusterTops B, t ∈ clusterMembers B t ∧
      ∀ m ∈ clusterMembers B t, m ≠ t → descendants B m < descendants B t) ∧
    (∀ i, i < B.length → Reach B i) := by
  refine ⟨promoted_eq hA, ?_, reach_all hA⟩
  intro t ht
  refine ⟨tops_mem_members hA ht, fun m hm hne => ?_⟩
  obtain ⟨hmlt, hmtop⟩ := mem_members_iff.mp hm
  exact desc_lt_top hA hmlt hmtop hne

/-- Witness for `attachSecondaryHomes_spec` at the concrete six-page
bundle `c2B`, whose hierarchy is acyclic. -/
theorem attachSecondaryHomes_spec_witness :
    Acyclic c2B ∧
    (promoted c2B = (clusterTops c2B).enum.map (fun p => (p.2, p.1)) ∧
     (∀ t ∈ clusterTops c2B, t ∈ clusterMembers c2B t ∧
       ∀ m ∈ clusterMembers c2B t, m ≠ t → descendants c2B m < descendants c2B t) ∧
     (∀ i, i < c2B.length → Reach c2B i)) :=
  ⟨by decide, attachSecondaryHomes_spec c2B (by decide)⟩

theorem parentIdx_root {B : List PageMeta} : parentIdx B (rootIdx B) = none := by
  unfold parentIdx
  rw [if_pos rfl]

theorem mem_tops_of_parentless {B : List PageMeta} {i : Nat} (hi : i < B.length)
    (hir : i ≠ rootIdx B) (hp : parentIdx B i = none) : i ∈ clusterTops B := by
  have htop : topOf B i = i := topOfF_parentless hp B.length
  unfold clusterTops
  rw [dedupFirst_mem, List.mem_filterMap]
  refine ⟨i, List.mem_range.mpr hi, ?_⟩
  dsimp only
  rw [htop, if_neg hir]

theorem parentIdx2_root {B : List PageMeta} (hA : Acyclic B) :
    parentIdx2 B (rootIdx B) = none := by
  have hni : rootIdx B ∉ promotedReps B := by
    rw [promotedReps_eq hA]
    intro hmem
    exact (topOf_spec_of_mem_tops hA hmem).2.2.1 rfl
  unfold parentIdx2
  rw [if_neg hni]
  exact parentIdx_root

theorem parentIdx2_of_parent {B : List PageMeta} (hA : Acyclic B) {i j : Nat}
    (hp : parentIdx B i = some j) : parentIdx2 B i = some j := by
  have hni : i ∉ promotedReps B := by
    rw [promotedReps_eq hA]
    intro hmem
    have hn := (topOf_spec_of_mem_tops hA hmem).2.1
    exact Option.noConfusion (hn.symm.trans hp)
  unfold parentIdx2
  rw [if_neg hni]
  exact hp

theorem parentIdx2_promoted {B : List PageMeta} (hA : Acyclic B) {i : Nat}
    (hi : i < B.length) (hir : i ≠ rootIdx B) (hp : parentIdx B i = none) :
    parentIdx2 B i = some (rootIdx B) := by
  have hmem : i ∈ promotedReps B := by
    rw [promotedReps_eq hA]
    exact mem_tops_of_parentless hi hir hp
  unfold parentIdx2
  rw [if_pos hmem]

theorem uplen_of_parentless {B : List PageMeta} {i : Nat}
    (hp : parentIdx B i = none) : uplen B i = 0 := by
  unfold uplen uplenF
  cases B.length with
  | zero =>
    dsimp only
    rw [hp]
    rfl
  | succ f =>
    dsimp only
    rw [hp]
    rfl

theorem pathF_succ {B : List PageMeta} {f i : Nat} :
    pathF B (f + 1) i =
      match parentIdx2 B i with
      | none => []
      | some j => pathF B f j ++ [idAt B i] := rfl

theorem pathF_root {B : List PageMeta} (hA : Acyclic B) :
    ∀ f, pathF B f (rootIdx B) = [] := by
  intro f
  cases f with
  | zero => rfl
  | succ f0 =>
    rw [pathF_succ, parentIdx2_root hA]

theorem pathF_stab {B : List PageMeta} (hA : Acyclic B) :
    ∀ u i, i < B.length → uplen B i = u → ∀ f, u + 1 ≤ f →
      pathF B f i = pathF B (u + 1) i := by
  intro u
  induction u using Nat.strong_induction_on with
  | _ u ih =>
    intro i hi hu f hf
    by_cases hroot : i = rootIdx B
    · subst hroot
      rw [pathF_root hA, pathF_root hA]
    · obtain ⟨f0, rfl⟩ : ∃ f0, f = f0 + 1 := ⟨f - 1, by omega⟩
      cases hp : parentIdx B i with
      | some j =>
        have hj : j < B.length := parentIdx_lt hp
        have hp2 := parentIdx2_of_parent hA hp
        have hupar := uplen_parent_eq hA hi hp
        have hult := uplen_le_length hA hi
        obtain ⟨u0, rfl⟩ : ∃ u0, u = u0 + 1 := ⟨u - 1, by omega⟩
        have huj : uplen B j = u0 := by omega
        have e1 : pathF B (f0 + 1) i = pathF B f0 j ++ [idAt B i] := by
          rw [pathF_succ, hp2]
        have e2 : pathF B (u0 + 1 + 1) i = pathF B (u0 + 1) j ++ [idAt B i] := by
          rw [pathF_succ, hp2]
        rw [e1, e2, ih u0 (by omega) j hj huj f0 (by omega)]
      | none =>
        have hp2 := parentIdx2_promoted hA hi hroot hp
        have hu0 : u = 0 := by rw [← hu, uplen_of_parentless hp]
        subst hu0
        have e1 : pathF B (f0 + 1) i = pathF B f0 (rootIdx B) ++ [idAt B i] := by
          rw [pathF_succ, hp2]
        have e2 : pathF B (0 + 1) i = pathF B 0 (rootIdx B) ++ [idAt B i] := by
          rw [pathF_succ, hp2]
        rw [e1, e2, pathF_root hA, pathF_root hA]

theorem idAt_inj {B : List PageMeta} (hU : (B.map PageMeta.id).Nodup) {k i : Nat}
    (hk : k < B.length) (hi : i < B.length) (h : idAt B k = idAt B i) : k = i := by
  have hmk : (B.map PageMeta.id).get? k = some (idAt B k) := by
    rw [List.get?_map]
    unfold idAt
    cases hg : B.get? k with
    | none =>
      have := List.get?_eq_none.mp hg
      omega
    | some pk => rfl
  have hmi : (B.map PageMeta.id).get? i = some (idAt B i) := by
    rw [List.get?_map]
    unfold idAt
    cases hg : B.get? i with
    | none =>
      have := List.get?_eq_none.mp hg
      omega
    | some pi => rfl
  exact List.get?_inj (by simpa using hk) hU (hmk.trans (by rw [h, ← hmi]))

theorem find_eq_some_of_unique {α} (p : α → Bool) :
    ∀ (l : List α) (a : α), a ∈ l → p a = true → (∀ b ∈ l, p b = true → b = a) →
      l.find? p = some a := by
  intro l
  induction l with
  | nil => intro a ha _ _; exact absurd ha (List.not_mem_nil a)
  | cons c cs ih =>
    intro a ha hpa huniq
    cases hpc : p c with
    | true =>
      rw [List.find?_cons_of_pos _ hpc]
      exact congrArg some (huniq c (List.mem_cons_self _ _) hpc)
    | false =>
      rw [List.find?_cons_of_neg _ (by simp [hpc])]
      rcases List.mem_cons.mp ha with rfl | hmem
      · rw [hpa] at hpc
        exact Bool.noConfusion hpc
      · exact ih a hmem hpa (fun b hb => huniq b (List.mem_cons_of_mem _ hb))

theorem childrenOf2_mem_lt {B : List PageMeta} (hA : Acyclic B) {k j : Nat}
    (hk : k ∈ childrenOf2 B j) : k < B.length := by
  unfold childrenOf2 at hk
  have hc : ∀ x, x ∈ childrenOf B j → x < B.length := by
    intro x hx
    unfold childrenOf at hx
    exact List.mem_range.mp (List.mem_filter.mp hx).1
  by_cases hjr : j = rootIdx B
  · rw [if_pos hjr] at hk
    rcases List.mem_append.mp hk with h | h
    · exact hc k h
    · rw [promotedReps_eq hA] at h
      exact (topOf_spec_of_mem_tops hA h).1
  · rw [if_neg hjr] at hk
    exact hc k hk

theorem findSegs_cons {B : List PageMeta} (hA : Acyclic B)
    (hU : (B.map PageMeta.id).Nodup) {i j : Nat} (hi : i < B.length)
    (hchild : i ∈ childrenOf2 B j) (rest : List Str) :
    findSegs B j (idAt B i :: rest) = findSegs B i rest := by
  have hfind : (childrenOf2 B j).find? (fun k => idAt B k == idAt B i) = some i := by
    apply find_eq_some_of_unique _ _ i hchild (by simp)
    intro b hb hpb
    exact idAt_inj hU (childrenOf2_mem_lt hA hb) hi (by simpa using hpb)
  show (match (childrenOf2 B j).find? (fun k => idAt B k == idAt B i) with
        | none => j
        | some c => findSegs B c rest) = findSegs B i rest
  rw [hfind]

theorem hashSegs_root {B : List PageMeta} (hA : Acyclic B) :
    hashSegsOf B (rootIdx B) = [] := pathF_root hA (B.length + 1)

theorem hashSegs_parent {B : List PageMeta} (hA : Acyclic B) {i j : Nat}
    (hi : i < B.length) (hp : parentIdx B i = some j) :
    hashSegsOf B i = hashSegsOf B j ++ [idAt B i] := by
  have hj : j < B.length := parentIdx_lt hp
  have hupar := uplen_parent_eq hA hi hp
  have hult := uplen_le_length hA hi
  unfold hashSegsOf
  rw [pathF_succ, parentIdx2_of_parent hA hp]
  dsimp only
  rw [pathF_stab hA (uplen B j) j hj rfl B.length (by omega),
      pathF_stab hA (uplen B j) j hj rfl (B.length + 1) (by omega)]

theorem hashSegs_top {B : List PageMeta} (hA : Acyclic B) {i : Nat}
    (hi : i < B.length) (hir : i ≠ rootIdx B) (hp : parentIdx B i = none) :
    hashSegsOf B i = [idAt B i] := by
  unfold hashSegsOf
  rw [pathF_succ, parentIdx2_promoted hA hi hir hp]
  dsimp only
  rw [pathF_root hA, List.nil_append]

/-- Resolution of a page's hash path, generalized over a residual segment
list so the parent-chain induction goes through. -/
theorem resolve_all {B : List PageMeta} (hA : Acyclic B)
    (hU : (B.map PageMeta.id).Nodup) :
    ∀ u i, i < B.length → uplen B i = u → ∀ rest,
      findSegs B (rootIdx B) (hashSegsOf B i ++ rest) = findSegs B i rest := by
  intro u
  induction u using Nat.strong_induction_on with
  | _ u ih =>
    intro i hi hu rest
    by_cases hroot : i = rootIdx B
    · subst hroot
      rw [hashSegs_root hA, List.nil_append]
    · cases hp : parentIdx B i with
      | some j =>
        have hj : j < B.length := parentIdx_lt hp
        have hupar := uplen_parent_eq hA hi hp
        have hchild : i ∈ childrenOf2 B j := by
          have hcj : i ∈ childrenOf B j := childrenOf_mem.mpr ⟨hi, hp⟩
          unfold childrenOf2
          by_cases hjr : j = rootIdx B
          · rw [if_pos hjr]
            exact List.mem_append_left _ hcj
          · rw [if_neg hjr]
            exact hcj
        rw [hashSegs_parent hA hi hp, List.append_assoc, List.singleton_append,
            ih (uplen B j) (by omega) j hj rfl (idAt B i :: rest)]
        exact findSegs_cons hA hU hi hchild rest
      | none =>
        have hchild : i ∈ childrenOf2 B (rootIdx B) := by
          unfold childrenOf2
          rw [if_pos rfl]
          refine List.mem_append_right _ ?_
          rw [promotedReps_eq hA]
          exact mem_tops_of_parentless hi hroot hp
        rw [hashSegs_top hA hi hroot hp]
        exact findSegs_cons hA hU hi hchild rest

/--
**C3.**  For every bundle with pairwise-distinct page ids and no
parent-reference cycles: after hierarchy building, orphan promotion and
path assignment, the root's computed path is empty, and resolving any
page's computed path (its ancestor ids from, but excluding, the root down
to the page) via the child-matching resolver returns exactly that page.
-/
theorem computeHashes_find_roundtrip (B : List PageMeta)
    (hU : (B.map PageMeta.id).Nodup) (hA : Acyclic B) :
    hashSegsOf B (rootIdx B) = [] ∧
    ∀ i, i < B.length → findSegs B (rootIdx B) (hashSegsOf B i) = i := by
  refine ⟨hashSegs_root hA, fun i hi => ?_⟩
  have h := resolve_all hA hU (uplen B i) i hi rfl []
  rw [List.append_nil] at h
  rw [h]
  rfl

/-- Witness for `computeHashes_find_roundtrip` at the concrete bundle
`c2B`, whose ids are distinct and whose hierarchy is acyclic. -/
theorem computeHashes_find_roundtrip_witness :
    (c2B.map PageMeta.id).Nodup ∧ Acyclic c2B ∧
    (hashSegsOf c2B (rootIdx c2B) = [] ∧
     ∀ i, i < c2B.length → findSegs c2B (rootIdx c2B) (hashSegsOf c2B i) = i) :=
  ⟨by decide, by decide, computeHashes_find_roundtrip c2B (by decide) (by decide)⟩

/-- Witness for `word_boundary_tag_rank` at the two concrete
counterexample pages, the second cut down to two sections. -/
theorem word_boundary_tag_rank_witness :
    ("foo".data ∈ tagsListOf c7p1.tags ∧
      includesSub (lower c7p1.title) ("foo".data) = false ∧
      includesSub (lower c7p1.content) ("foo".data) = false ∧
      sectionsOf c7p1.content = some c7p1.sections ∧
      firstMatchFrom (lower c7w2.title) ("foo".data) 0 = none ∧
      firstMatchFrom (lower (joinSp (tagsListOf c7w2.tags))) ("foo".data) 0 = none ∧
      firstMatchFrom (lower c7w2.content) ("foo".data) 0 = none ∧
      includesSub (searchStrOf c7w2) ("foo".data) = true ∧
      (matchedSecs ["foo".data] c7w2).length ≤ 2) ∧
    RankedAbove c7p1 c7w2 ("foo".data) :=
  ⟨by decide,
    word_boundary_tag_rank c7p1 c7w2 (by decide) (by decide) (by decide) (by decide)
      (by decide) (by decide) (by decide) (by decide) (by decide)⟩

end Km
